import Mathlib

/-!
# Verification of the distributed file system's coordinator and client logic

A shallow embedding of the Go sources of `distributed_file_system`:
the master (coordinator) metadata store (`master/metadata.go`), the master
RPC surface (`master/server.go`), the chunk-server storage index
(`chunkserver/storage.go`) and RPC surface (`chunkserver/server.go`), and
the client upload/download orchestration (`client/client.go`).

Modelling conventions:
* Go maps are modelled as association lists with `alookup`/`aupsert`;
  `aupsert` replaces the binding of an existing key in place, so the key
  set stays duplicate-free, matching Go map semantics.  Go's unspecified
  map iteration order is represented by the (arbitrary) order of the
  association list.
* Timestamps (`time.Time`) are natural numbers counting seconds.  Go's
  `now.Sub(t) < 30*time.Second` is modelled as `now - t < 30` with
  truncated `Nat` subtraction: when `t > now` both the Go expression
  (a negative duration) and the model (`0`) satisfy the bound.
* `int64`/`int` values are modelled as `Int` (no overflow occurs in the
  modelled code paths); Go's truncated division and remainder are
  `Int.tdiv` / `Int.tmod`.
* Chunk bytes are modelled as `List Nat`.
* `GenerateChunkHandle` (a truncated SHA-256 of `filename ++ "-" ++
  decimal index`) is modelled as an explicit function parameter `genH`;
  theorems that need distinct handles assume injectivity in the chunk
  index, which is the collision-freeness the design relies on.
* The chunk server's fire-and-forget `ReportChunk` is applied
  synchronously after a successful `WriteChunk`; this models the settled
  state once every outstanding report has landed.
* RPC transport failures are modelled by oracles: `masterNet : Bool`
  (can the client reach the master) and `net : String → Bool` (can the
  client reach a given chunk-server address).
-/

namespace Dfs

/-- `common.ChunkSize = 64 * 1024 * 1024` (64 MiB). -/
def ChunkSize : Nat := 64 * 1024 * 1024

/-- `common.ReplicationFactor = 3` (a Go `int`). -/
def ReplicationFactor : Int := 3

/-- Association-list lookup, modelling Go map indexing. -/
def alookup {κ α : Type} [DecidableEq κ] (k : κ) : List (κ × α) → Option α
  | [] => none
  | (k', v) :: rest => if k' = k then some v else alookup k rest

/-- Association-list insert/replace, modelling Go map assignment
`m[k] = v`: an existing binding of `k` is replaced in place, otherwise
the binding is appended. -/
def aupsert {κ α : Type} [DecidableEq κ] (k : κ) (v : α) :
    List (κ × α) → List (κ × α)
  | [] => [(k, v)]
  | (k', v') :: rest =>
      if k' = k then (k, v) :: rest else (k', v') :: aupsert k v rest

theorem alookup_aupsert_self {κ α : Type} [DecidableEq κ] (k : κ) (v : α) :
    ∀ m : List (κ × α), alookup k (aupsert k v m) = some v := by
  intro m
  induction m with
  | nil => simp [alookup, aupsert]
  | cons p rest ih =>
      obtain ⟨k', v'⟩ := p
      by_cases h : k' = k
      · simp [alookup, aupsert, h]
      · simp [alookup, aupsert, h, ih]

theorem alookup_aupsert_ne {κ α : Type} [DecidableEq κ] (k k' : κ) (v : α)
    (h : k ≠ k') : ∀ m : List (κ × α),
    alookup k' (aupsert k v m) = alookup k' m := by
  intro m
  induction m with
  | nil => simp [alookup, aupsert, h]
  | cons p rest ih =>
      obtain ⟨k₀, v₀⟩ := p
      by_cases h0 : k₀ = k
      · subst h0
        simp [alookup, aupsert, h]
      · simp [alookup, aupsert, h0, ih]

/-- `common.CalculateNumChunks`: Go integer division and remainder on
`int64` (truncated), incrementing when the size is not a multiple of the
chunk size. -/
def CalculateNumChunks (filesize : Int) : Int :=
  let numChunks := filesize.tdiv (ChunkSize : Int)
  if filesize.tmod (ChunkSize : Int) ≠ 0 then numChunks + 1 else numChunks

/-- `master.FileMetadata` (the `CreatedAt : time.Time` field is a
second-counting `Nat`). -/
structure FileMetadata where
  filename : String
  filesize : Int
  chunkCount : Int
  chunks : List String
  createdAt : Nat
deriving DecidableEq

/-- `master.ChunkMetadata`. -/
structure ChunkMetadata where
  chunkHandle : String
  locations : List String
  version : Int
  filename : String
  chunkIndex : Int
deriving DecidableEq

/-- `master.ChunkServerInfo`. -/
structure ChunkServerInfo where
  address : String
  latestHeartbeat : Nat
  chunks : List String
deriving DecidableEq

/-- `master.Metadata`: the three coordinator maps. -/
structure Metadata where
  files : List (String × FileMetadata)
  chunks : List (String × ChunkMetadata)
  chunkServers : List (String × ChunkServerInfo)
deriving DecidableEq

/-- `master.NewMetadata`. -/
def Metadata.new : Metadata := ⟨[], [], []⟩

/-- `Metadata.AddFile`: inserts a file record with an empty chunk list,
overwriting any prior entry with the same name. -/
def Metadata.addFile (m : Metadata) (now : Nat) (filename : String)
    (filesize : Int) (chunkCount : Int) : Metadata :=
  let f : FileMetadata :=
    { filename := filename, filesize := filesize, chunkCount := chunkCount
      chunks := [], createdAt := now }
  { m with files := aupsert filename f m.files }

/-- `Metadata.AddChunkToFile`: appends a handle to the named file's chunk
list; no-op when the file is absent. -/
def Metadata.addChunkToFile (m : Metadata) (filename : String)
    (chunkHandle : String) : Metadata :=
  match alookup filename m.files with
  | none => m
  | some file =>
      let f : FileMetadata := { file with chunks := file.chunks ++ [chunkHandle] }
      { m with files := aupsert filename f m.files }

/-- `Metadata.AddChunk`: inserts a chunk record with empty locations and
version 1, overwriting any prior entry with the same handle. -/
def Metadata.addChunk (m : Metadata) (chunkHandle : String)
    (filename : String) (chunkIndex : Int) : Metadata :=
  let c : ChunkMetadata :=
    { chunkHandle := chunkHandle, locations := [], version := 1
      filename := filename, chunkIndex := chunkIndex }
  { m with chunks := aupsert chunkHandle c m.chunks }

/-- `Metadata.AddChunkLocation`: appends the address to the chunk's
location list unless already present; no-op when the chunk is absent. -/
def Metadata.addChunkLocation (m : Metadata) (chunkHandle : String)
    (serverAddress : String) : Metadata :=
  match alookup chunkHandle m.chunks with
  | none => m
  | some chunk =>
      if chunk.locations.contains serverAddress then m
      else
        let c : ChunkMetadata :=
          { chunk with locations := chunk.locations ++ [serverAddress] }
        { m with chunks := aupsert chunkHandle c m.chunks }

/-- `Metadata.GetFile`. -/
def Metadata.getFile (m : Metadata) (filename : String) :
    Option FileMetadata :=
  alookup filename m.files

/-- `Metadata.GetChunk`. -/
def Metadata.getChunk (m : Metadata) (chunkHandle : String) :
    Option ChunkMetadata :=
  alookup chunkHandle m.chunks

/-- `Metadata.ListFiles`: the values of the `files` map, in iteration
order.  (In Go this is a slice of pointers; the pointer-level behaviour
is modelled separately by `MetadataH` below.) -/
def Metadata.listFiles (m : Metadata) : List FileMetadata :=
  m.files.map Prod.snd

/-- `Metadata.RegisterChunkServer`: upserts the node record, setting
`LatestHeartbeat` to `now` and replacing the inventory. -/
def Metadata.registerChunkServer (m : Metadata) (now : Nat)
    (address : String) (chunks : List String) : Metadata :=
  let s : ChunkServerInfo :=
    { address := address, latestHeartbeat := now, chunks := chunks }
  { m with chunkServers := aupsert address s m.chunkServers }

/-- The loop body of `Metadata.GetAvailableChunkServers`: iterates the
`chunkServers` map, appends each address whose heartbeat is within the
last 30 seconds, and breaks as soon as the accumulated list reaches
`replicationFactor` elements.  Note the break test runs *after* the
append, so even `replicationFactor ≤ 0` yields up to one address. -/
def availableLoop (now : Nat) (replicationFactor : Int) :
    List String → List (String × ChunkServerInfo) → List String
  | acc, [] => acc
  | acc, (address, server) :: rest =>
      if now - server.latestHeartbeat < 30 then
        let acc := acc ++ [address]
        if (acc.length : Int) ≥ replicationFactor then acc
        else availableLoop now replicationFactor acc rest
      else availableLoop now replicationFactor acc rest

/-- `Metadata.GetAvailableChunkServers`. -/
def Metadata.getAvailableChunkServers (m : Metadata) (now : Nat)
    (replicationFactor : Int) : List String :=
  availableLoop now replicationFactor [] m.chunkServers

/-!
## Master RPC surface (`master/server.go`)
-/

/-- The closed error taxonomy of the design (spec §7).  The master's
`DownloadFile` produces its two `fmt.Errorf` failures as `notFound`
("file not found: …") and `internalErr` ("chunk not found: …", an
invariant violation); a data node's missing-chunk read is `notFound`;
transport failures are `unavailable`.  `invalidArgument` is part of the
taxonomy but, as proved below, never produced by the code. -/
inductive DfsError where
  | invalidArgument : DfsError
  | notFound : String → DfsError
  | internalErr : String → DfsError
  | unavailable : DfsError
deriving DecidableEq

/-- The wire message `ChunkLocation` (`ChunkPlacement` in the spec). -/
structure ChunkLocation where
  chunkHandle : String
  chunkServerAddresses : List String
  chunkIndex : Int
deriving DecidableEq

/-- The chunk-allocation loop of `Server.UploadFile`
(`for i := range numChunks`): for each index it derives the handle,
adds the chunk record, appends it to the file, queries the available
chunk servers and emits a `ChunkLocation`.  `i` is the next index,
`n` the number of indices still to process. -/
def uploadChunksLoop (genH : String → Nat → String) (now : Nat)
    (filename : String) : Nat → Nat → Metadata → Metadata × List ChunkLocation
  | _, 0, m => (m, [])
  | i, n + 1, m =>
      let chunkHandle := genH filename i
      let m := m.addChunk chunkHandle filename (i : Int)
      let m := m.addChunkToFile filename chunkHandle
      let servers := m.getAvailableChunkServers now ReplicationFactor
      let loc : ChunkLocation :=
        { chunkHandle := chunkHandle, chunkServerAddresses := servers
          chunkIndex := (i : Int) }
      let r := uploadChunksLoop genH now filename (i + 1) n m
      (r.1, loc :: r.2)

/-- `Server.UploadFile`: computes the chunk count, adds the file record,
allocates every chunk and returns the ordered placement list.  The Go
handler performs no argument validation and never returns an error. -/
def masterUploadFile (genH : String → Nat → String) (m : Metadata)
    (now : Nat) (filename : String) (filesize : Int) :
    Except DfsError (Metadata × List ChunkLocation) :=
  let numChunks := CalculateNumChunks filesize
  let m := m.addFile now filename filesize numChunks
  let r := uploadChunksLoop genH now filename 0 numChunks.toNat m
  Except.ok r

/-- The location-collection loop of `Server.DownloadFile`: for each
handle of the file, looks the chunk up and emits its locations, failing
on the first handle without a chunk record. -/
def collectLocations (m : Metadata) :
    List String → Except DfsError (List ChunkLocation)
  | [] => Except.ok []
  | chunkHandle :: rest =>
      match m.getChunk chunkHandle with
      | none => Except.error (DfsError.internalErr chunkHandle)
      | some chunk =>
          match collectLocations m rest with
          | Except.error e => Except.error e
          | Except.ok tail =>
              let loc : ChunkLocation :=
                { chunkHandle := chunkHandle
                  chunkServerAddresses := chunk.locations
                  chunkIndex := chunk.chunkIndex }
              Except.ok (loc :: tail)

/-- `Server.DownloadFile`: fails with `notFound` when the file record is
absent, with `internalErr` when a listed chunk record is absent, and
otherwise returns the (unchanged) metadata, the file size and the
per-chunk locations.  The handler only calls `GetFile`/`GetChunk`, so it
never mutates the store; the returned `Metadata` makes that explicit. -/
def masterDownloadFile (m : Metadata) (filename : String) :
    Except DfsError (Metadata × Int × List ChunkLocation) :=
  match m.getFile filename with
  | none => Except.error (DfsError.notFound filename)
  | some file =>
      match collectLocations m file.chunks with
      | Except.error e => Except.error e
      | Except.ok locs => Except.ok (m, file.filesize, locs)

/-- The wire message `FileInfo`. -/
structure FileInfo where
  filename : String
  filesize : Int
  numChunks : Int
deriving DecidableEq

/-- `Server.ListFiles`. -/
def masterListFiles (m : Metadata) : List FileInfo :=
  (m.listFiles).map fun file =>
    { filename := file.filename, filesize := file.filesize
      numChunks := file.chunkCount }

/-- `Server.Heartbeat`: upserts the node registration and always
acknowledges with `Success = true`. -/
def masterHeartbeat (m : Metadata) (now : Nat) (address : String)
    (chunkHandles : List String) : Metadata × Bool :=
  (m.registerChunkServer now address chunkHandles, true)

/-- `Server.ReportChunk`: adds the location (a no-op for an unknown
handle) and always acknowledges with `Success = true`. -/
def masterReportChunk (m : Metadata) (chunkHandle : String)
    (serverAddress : String) : Metadata × Bool :=
  (m.addChunkLocation chunkHandle serverAddress, true)

/-- `N` successive `ReportChunk` calls with the same handle and
address. -/
def iterateReportChunk (m : Metadata) (chunkHandle serverAddress : String) :
    Nat → Metadata
  | 0 => m
  | n + 1 =>
      iterateReportChunk (masterReportChunk m chunkHandle serverAddress).1
        chunkHandle serverAddress n

/-!
## Chunk-server storage index (`chunkserver/storage.go`)
-/

/-- `chunkserver.Storage`: the in-memory present-set (`chunks`, a Go
`map[string]bool` used as a set — only `true` is ever stored and
`DeleteChunk` removes the key) and the storage directory (`disk`, one
file per chunk handle). -/
structure Storage where
  chunks : List String
  disk : List (String × List Nat)
deriving DecidableEq

/-- An empty storage directory (`NewStorage` on a fresh directory). -/
def Storage.new : Storage := ⟨[], []⟩

/-- `Storage.WriteChunk`: writes the bytes under the handle (overwriting
on conflict) and marks the handle present in the in-memory set. -/
def Storage.writeChunk (s : Storage) (chunkHandle : String)
    (data : List Nat) : Storage :=
  { chunks := if s.chunks.contains chunkHandle then s.chunks
              else s.chunks ++ [chunkHandle]
    disk := aupsert chunkHandle data s.disk }

/-- `Storage.ReadChunk`: fails with `notFound` ("chunk not found: …")
when the in-memory set excludes the handle; otherwise reads the file,
any read failure being `internalErr` ("failed to read chunk: …"). -/
def Storage.readChunk (s : Storage) (chunkHandle : String) :
    Except DfsError (List Nat) :=
  if ¬ s.chunks.contains chunkHandle then
    Except.error (DfsError.notFound chunkHandle)
  else
    match alookup chunkHandle s.disk with
    | some data => Except.ok data
    | none => Except.error (DfsError.internalErr chunkHandle)

/-- `Storage.HasChunk`: consults the in-memory set only. -/
def Storage.hasChunk (s : Storage) (chunkHandle : String) : Bool :=
  s.chunks.contains chunkHandle

/-- `Storage.ListChunks`: a copy of the in-memory set. -/
def Storage.listChunks (s : Storage) : List String :=
  s.chunks

/-!
## System state and client orchestration (`chunkserver/server.go`,
`client/client.go`)
-/

/-- The whole system: the master's metadata plus one `Storage` per
running chunk server, keyed by address. -/
structure SystemState where
  master : Metadata
  servers : List (String × Storage)
deriving DecidableEq

/-- The client's `writeChunkToServer` followed by the chunk server's
`WriteChunk` handler: when the transport oracle `net` reaches a running
server, the bytes are stored and the server's fire-and-forget
`reportChunkToMaster` is applied (modelling the settled state after the
asynchronous report has landed); a transport failure or missing server
leaves the system unchanged (the client only logs a warning). -/
def writeChunkToServer (net : String → Bool) (sys : SystemState)
    (serverAddr : String) (chunkHandle : String) (data : List Nat) :
    SystemState :=
  if net serverAddr then
    match alookup serverAddr sys.servers with
    | none => sys
    | some st =>
        { master := (masterReportChunk sys.master chunkHandle serverAddr).1
          servers := aupsert serverAddr (st.writeChunk chunkHandle data)
            sys.servers }
  else sys

/-- `Client.uploadChunk`: slices
`fileData[index*ChunkSize : min((index+1)*ChunkSize, len(fileData))]`
and writes it to every replica address, continuing (with only a logged
warning) past failed replicas.  It always reports success. -/
def clientUploadChunk (net : String → Bool) (fileData : List Nat)
    (loc : ChunkLocation) (sys : SystemState) : SystemState :=
  let start := loc.chunkIndex.toNat * ChunkSize
  let chunkData := (fileData.drop start).take ChunkSize
  loc.chunkServerAddresses.foldl
    (fun sys addr => writeChunkToServer net sys addr loc.chunkHandle chunkData)
    sys

/-- `Client.UploadFile`: requests the allocation from the master (a
transport failure, `masterNet = false`, is the only error surface),
then uploads every chunk in placement order.  Per-replica failures never
abort the upload. -/
def clientUploadFile (genH : String → Nat → String) (masterNet : Bool)
    (net : String → Bool) (sys : SystemState) (now : Nat)
    (data : List Nat) (remoteName : String) :
    SystemState × Except DfsError Unit :=
  if ¬ masterNet then (sys, Except.error DfsError.unavailable)
  else
    match masterUploadFile genH sys.master now remoteName (data.length : Int) with
    | Except.error e => (sys, Except.error e)
    | Except.ok (m', locs) =>
        let sys := { master := m', servers := sys.servers }
        (locs.foldl (fun sys loc => clientUploadChunk net data loc sys) sys,
         Except.ok ())

/-- `Client.downloadChunk`: tries the replica addresses in order and
returns the first successful read; exhausting every address is the
fatal "failed to download chunk from any server" error. -/
def clientDownloadChunk (net : String → Bool) (sys : SystemState)
    (chunkHandle : String) : List String → Except DfsError (List Nat)
  | [] => Except.error (DfsError.internalErr "failed to download chunk from any server")
  | addr :: rest =>
      if net addr then
        match alookup addr sys.servers with
        | none => clientDownloadChunk net sys chunkHandle rest
        | some st =>
            match st.readChunk chunkHandle with
            | Except.ok data => Except.ok data
            | Except.error _ => clientDownloadChunk net sys chunkHandle rest
      else clientDownloadChunk net sys chunkHandle rest

/-- Go's `copy(buf[start:], data)`: overwrites
`min(len(data), len(buf) - start)` elements of `buf` from position
`start` on, leaving the rest of the buffer unchanged. -/
def copyInto {α : Type} (buf : List α) (start : Nat) (data : List α) :
    List α :=
  buf.take start ++ data.take (buf.length - start) ++
    buf.drop (start + data.length)

/-- The reassembly loop of `Client.DownloadFile`: downloads each chunk
and copies it into the buffer at `index * ChunkSize`. -/
def downloadLoop (net : String → Bool) (sys : SystemState) :
    List ChunkLocation → List Nat → Except DfsError (List Nat)
  | [], buf => Except.ok buf
  | loc :: rest, buf =>
      match clientDownloadChunk net sys loc.chunkHandle
          loc.chunkServerAddresses with
      | Except.error e => Except.error e
      | Except.ok chunkData =>
          downloadLoop net sys rest
            (copyInto buf (loc.chunkIndex.toNat * ChunkSize) chunkData)

/-- `Client.DownloadFile`: asks the master for the size and placements,
allocates a zero buffer of the reported size (`make([]byte, filesize)`),
then downloads and reassembles every chunk.  Returns the reassembled
bytes (the final write to the local path is outside the model). -/
def clientDownloadFile (masterNet : Bool) (net : String → Bool)
    (sys : SystemState) (remoteName : String) :
    Except DfsError (List Nat) :=
  if ¬ masterNet then Except.error DfsError.unavailable
  else
    match masterDownloadFile sys.master remoteName with
    | Except.error e => Except.error e
    | Except.ok (_, filesize, locs) =>
        downloadLoop net sys locs (List.replicate filesize.toNat 0)

/-!
## Pointer-level model of the file map (`master/metadata.go`)

In Go, `Metadata.files` is a `map[string]*FileMetadata` and `ListFiles`
returns a `[]*FileMetadata` — a fresh slice whose elements are the
*pointers* stored in the map.  Sharing through those pointers is not
expressible in the value-level `Metadata` model, so the operations that
claim C9 exercises are modelled again at the pointer level: a heap maps
pointer identifiers (`Nat`) to `FileMetadata` records, and the file map
stores pointers.  `AddFile` allocates a fresh record (`&FileMetadata{…}`),
`AddChunkToFile` mutates the pointed-to record in place
(`file.Chunks = append(file.Chunks, chunkHandle)`). -/
structure MetadataH where
  heap : List (Nat × FileMetadata)
  files : List (String × Nat)
  nextPtr : Nat
deriving DecidableEq

/-- The empty pointer-level store. -/
def MetadataH.new : MetadataH := ⟨[], [], 0⟩

/-- Pointer-level `AddFile`: allocates a fresh record and points the
name at it; a previous record for the name is unlinked but stays on the
heap (Go garbage-collects it only once unreachable). -/
def MetadataH.addFile (m : MetadataH) (now : Nat) (filename : String)
    (filesize : Int) (chunkCount : Int) : MetadataH :=
  let f : FileMetadata :=
    { filename := filename, filesize := filesize, chunkCount := chunkCount
      chunks := [], createdAt := now }
  { heap := aupsert m.nextPtr f m.heap
    files := aupsert filename m.nextPtr m.files
    nextPtr := m.nextPtr + 1 }

/-- Pointer-level `AddChunkToFile`: mutates the pointed-to record in
place, so the change is visible through every alias of the pointer. -/
def MetadataH.addChunkToFile (m : MetadataH) (filename : String)
    (chunkHandle : String) : MetadataH :=
  match alookup filename m.files with
  | none => m
  | some p =>
      match alookup p m.heap with
      | none => m
      | some f =>
          let f' : FileMetadata := { f with chunks := f.chunks ++ [chunkHandle] }
          { m with heap := aupsert p f' m.heap }

/-- Pointer-level `ListFiles`: a fresh slice holding the map's pointers. -/
def MetadataH.listFiles (m : MetadataH) : List Nat :=
  m.files.map Prod.snd

/-- What a caller holding a previously returned `[]*FileMetadata` slice
observes later: each pointer dereferenced in the current heap. -/
def MetadataH.deref (m : MetadataH) (ptrs : List Nat) :
    List (Option FileMetadata) :=
  ptrs.map fun p => alookup p m.heap

/-!
## Example states used to instantiate the theorems
-/

/-- A sample handle-derivation function: the preimage string
`filename ++ "-" ++ decimal(index)` that `GenerateChunkHandle` hashes.
It is injective in the chunk index for a fixed name. -/
def genHEx : String → Nat → String :=
  fun filename i => filename ++ "-" ++ toString i

/-- A registered chunk server with a heartbeat at time 100. -/
def srvA : ChunkServerInfo := ⟨"a", 100, []⟩

/-- A coordinator state with one live chunk server and no files. -/
def mEx : Metadata := ⟨[], [], [("a", srvA)]⟩

/-- A system with the coordinator state `mEx` and one running chunk
server at address `"a"` with empty storage. -/
def sysEx : SystemState := ⟨mEx, [("a", Storage.new)]⟩

/-- A coordinator state holding one file `"f"` of 3 bytes whose single
chunk `"h0"` is stored on server `"a"`, plus one file-less chunk setup
used to exercise the download and report paths. -/
def mDl : Metadata :=
  ⟨[("f", ⟨"f", 3, 1, ["h0"], 0⟩)],
   [("h0", ⟨"h0", ["a"], 1, "f", 0⟩)], []⟩

/-- Like `mDl` but with no location recorded yet for chunk `"h0"`. -/
def mRp : Metadata :=
  ⟨[("f", ⟨"f", 3, 1, ["h0"], 0⟩)],
   [("h0", ⟨"h0", [], 1, "f", 0⟩)], []⟩

/-!
## Helper lemmas
-/

theorem alookup_some_mem {κ α : Type} [DecidableEq κ] {k : κ} {v : α} :
    ∀ {m : List (κ × α)}, alookup k m = some v → (k, v) ∈ m := by
  intro m
  induction m with
  | nil => intro h; simp [alookup] at h
  | cons p rest ih =>
      obtain ⟨k₀, v₀⟩ := p
      intro h
      by_cases h0 : k₀ = k
      · subst h0
        simp [alookup] at h
        simp [h]
      · simp [alookup, h0] at h
        simp [ih h]

theorem alookup_eq_of_mem_nodup {κ α : Type} [DecidableEq κ] {k : κ} {v : α} :
    ∀ {m : List (κ × α)}, (k, v) ∈ m → (m.map Prod.fst).Nodup →
      alookup k m = some v := by
  intro m
  induction m with
  | nil => intro h; simp at h
  | cons p rest ih =>
      obtain ⟨k₀, v₀⟩ := p
      intro hmem hnd
      simp only [List.map_cons, List.nodup_cons] at hnd
      rcases List.mem_cons.mp hmem with heq | htail
      · obtain ⟨hk, hv⟩ := Prod.mk.injEq .. ▸ heq
        simp [alookup, hk.symm, hv]
      · have hkne : k₀ ≠ k := by
          intro hkk
          exact hnd.1 (hkk ▸ (List.mem_map.mpr ⟨(k, v), htail, rfl⟩))
        simp [alookup, hkne, ih htail hnd.2]

/-- `CalculateNumChunks` on a non-negative size is the ceiling of
`size / ChunkSize`, written with the standard natural-number formula. -/
theorem calculateNumChunks_eq_ceil (v : Nat) :
    CalculateNumChunks (v : Int) = (((v + ChunkSize - 1) / ChunkSize : Nat) : Int) := by
  have htdiv : ((v : Int).tdiv (67108864 : Int)) = ((v / 67108864 : Nat) : Int) := rfl
  have htmod : ((v : Int).tmod (67108864 : Int)) = ((v % 67108864 : Nat) : Int) := rfl
  have hcs : (ChunkSize : Int) = (67108864 : Int) := by norm_num [ChunkSize]
  simp only [CalculateNumChunks, ChunkSize, hcs, htdiv, htmod]
  by_cases hmod : v % 67108864 = 0
  · simp only [hmod, Nat.cast_zero, ne_eq, not_true_eq_false, if_false,
      not_not, if_neg]
    · norm_num
      omega
  · have : ((v % 67108864 : Nat) : Int) ≠ 0 := by
      exact_mod_cast hmod
    simp only [ne_eq, this, not_false_eq_true, if_true, if_pos]
    norm_num
    omega

/-- `Metadata.addChunk` leaves the file map unchanged. -/
theorem addChunk_files (m : Metadata) (h nm : String) (i : Int) :
    (m.addChunk h nm i).files = m.files := rfl

/-- `Metadata.addChunk` leaves the chunk-server map unchanged. -/
theorem addChunk_chunkServers (m : Metadata) (h nm : String) (i : Int) :
    (m.addChunk h nm i).chunkServers = m.chunkServers := rfl

/-- `Metadata.addChunkToFile` leaves the chunk map unchanged. -/
theorem addChunkToFile_chunks (m : Metadata) (nm h : String) :
    (m.addChunkToFile nm h).chunks = m.chunks := by
  unfold Metadata.addChunkToFile
  cases alookup nm m.files <;> rfl

/-- `Metadata.addChunkToFile` leaves the chunk-server map unchanged. -/
theorem addChunkToFile_chunkServers (m : Metadata) (nm h : String) :
    (m.addChunkToFile nm h).chunkServers = m.chunkServers := by
  unfold Metadata.addChunkToFile
  cases alookup nm m.files <;> rfl

/-- `Metadata.addChunkLocation` leaves the file map unchanged. -/
theorem addChunkLocation_files (m : Metadata) (h a : String) :
    (m.addChunkLocation h a).files = m.files := by
  unfold Metadata.addChunkLocation
  cases alookup h m.chunks with
  | none => rfl
  | some c => by_cases hc : a ∈ c.locations <;> simp [hc]

/-- `Metadata.addChunkLocation` leaves the chunk-server map unchanged. -/
theorem addChunkLocation_chunkServers (m : Metadata) (h a : String) :
    (m.addChunkLocation h a).chunkServers = m.chunkServers := by
  unfold Metadata.addChunkLocation
  cases alookup h m.chunks with
  | none => rfl
  | some c => by_cases hc : a ∈ c.locations <;> simp [hc]

/-- The allocation loop does not touch the chunk-server map. -/
theorem uploadChunksLoop_chunkServers (genH : String → Nat → String)
    (now : Nat) (nm : String) : ∀ (n i : Nat) (m : Metadata),
    (uploadChunksLoop genH now nm i n m).1.chunkServers = m.chunkServers := by
  intro n
  induction n with
  | zero => intro i m; rfl
  | succ n ih =>
      intro i m
      simp only [uploadChunksLoop]
      rw [ih]
      rw [addChunkToFile_chunkServers, addChunk_chunkServers]

/-- The allocation loop appends exactly its chunk handles, in index
order, to the allocated file's chunk list. -/
theorem uploadChunksLoop_files (genH : String → Nat → String) (now : Nat)
    (nm : String) : ∀ (n i : Nat) (m : Metadata) (f : FileMetadata),
    alookup nm m.files = some f →
    alookup nm (uploadChunksLoop genH now nm i n m).1.files =
      some { f with chunks := f.chunks ++ (List.range' i n).map (genH nm) } := by
  intro n
  induction n with
  | zero =>
      intro i m f hf
      simpa [uploadChunksLoop] using hf
  | succ n ih =>
      intro i m f hf
      simp only [uploadChunksLoop]
      have hf1 : alookup nm ((m.addChunk (genH nm i) nm (i : Int)).files) = some f := by
        rw [addChunk_files]; exact hf
      have hstep : alookup nm (((m.addChunk (genH nm i) nm (i : Int)).addChunkToFile
          nm (genH nm i)).files) =
          some { f with chunks := f.chunks ++ [genH nm i] } := by
        unfold Metadata.addChunkToFile
        rw [hf1]
        simp [alookup_aupsert_self]
      rw [ih (i + 1) _ _ hstep]
      have hr : List.range' i (n + 1) = i :: List.range' (i + 1) n :=
        List.range'_succ i n 1
      rw [hr]
      simp

/-- The allocation loop emits one placement per index, carrying the
handle, the available servers of the entry state and the index. -/
theorem uploadChunksLoop_locs (genH : String → Nat → String) (now : Nat)
    (nm : String) : ∀ (n i : Nat) (m : Metadata),
    (uploadChunksLoop genH now nm i n m).2 =
      (List.range' i n).map (fun j =>
        ({ chunkHandle := genH nm j
           chunkServerAddresses := m.getAvailableChunkServers now ReplicationFactor
           chunkIndex := (j : Int) } : ChunkLocation)) := by
  intro n
  induction n with
  | zero => intro i m; simp [uploadChunksLoop]
  | succ n ih =>
      intro i m
      have hcs : ((m.addChunk (genH nm i) nm (i : Int)).addChunkToFile
          nm (genH nm i)).chunkServers = m.chunkServers := by
        rw [addChunkToFile_chunkServers, addChunk_chunkServers]
      simp only [uploadChunksLoop]
      rw [ih]
      rw [List.range'_succ i n 1]
      simp only [List.map_cons, Metadata.getAvailableChunkServers, hcs]

/-- `masterUploadFile` always succeeds; the new state holds a file
record whose chunk list is exactly the derived handles in index order,
and the returned placements carry those handles, the available servers
and the indices. -/
theorem masterUploadFile_ok (genH : String → Nat → String) (m : Metadata)
    (now : Nat) (nm : String) (size : Int) :
    ∃ m' locs, masterUploadFile genH m now nm size = Except.ok (m', locs) ∧
      m'.getFile nm = some
        { filename := nm, filesize := size
          chunkCount := CalculateNumChunks size
          chunks := (List.range' 0 (CalculateNumChunks size).toNat).map (genH nm)
          createdAt := now } ∧
      locs = (List.range' 0 (CalculateNumChunks size).toNat).map (fun j =>
        ({ chunkHandle := genH nm j
           chunkServerAddresses := m.getAvailableChunkServers now ReplicationFactor
           chunkIndex := (j : Int) } : ChunkLocation)) ∧
      m'.chunkServers = m.chunkServers := by
  refine ⟨_, _, rfl, ?_, ?_, ?_⟩
  · have hadd : alookup nm (m.addFile now nm size (CalculateNumChunks size)).files =
        some { filename := nm, filesize := size
               chunkCount := CalculateNumChunks size
               chunks := [], createdAt := now } := by
      simp [Metadata.addFile, alookup_aupsert_self]
    have := uploadChunksLoop_files genH now nm (CalculateNumChunks size).toNat 0
      (m.addFile now nm size (CalculateNumChunks size)) _ hadd
    simpa [Metadata.getFile, masterUploadFile] using this
  · have := uploadChunksLoop_locs genH now nm (CalculateNumChunks size).toNat 0
      (m.addFile now nm size (CalculateNumChunks size))
    simpa [masterUploadFile, Metadata.getAvailableChunkServers, Metadata.addFile]
      using this
  · have := uploadChunksLoop_chunkServers genH now nm
      (CalculateNumChunks size).toNat 0 (m.addFile now nm size (CalculateNumChunks size))
    simpa [masterUploadFile, Metadata.addFile] using this

/-- C2: every `UploadFile(name, size)` with `size ≥ 0` creates a file
record with `chunk_count = ceil(size / CHUNK_SIZE)` (the natural-number
ceiling formula, `CHUNK_SIZE = 67{,}108{,}864`), whose chunk list has
exactly `chunk_count` entries when the call returns; a zero size yields
chunk count 0 and an empty chunk list. -/
theorem uploadFile_chunk_count (genH : String → Nat → String) (m : Metadata)
    (now : Nat) (nm : String) (size : Int) (hsize : 0 ≤ size) :
    ∃ m' locs f, masterUploadFile genH m now nm size = Except.ok (m', locs) ∧
      m'.getFile nm = some f ∧
      f.chunkCount = (((size.toNat + ChunkSize - 1) / ChunkSize : Nat) : Int) ∧
      f.chunks.length = f.chunkCount.toNat ∧
      (size = 0 → f.chunkCount = 0 ∧ f.chunks = []) := by
  obtain ⟨m', locs, hok, hget, -, -⟩ := masterUploadFile_ok genH m now nm size
  have hsz : size = ((size.toNat : Nat) : Int) := (Int.toNat_of_nonneg hsize).symm
  have hceil : CalculateNumChunks size =
      (((size.toNat + ChunkSize - 1) / ChunkSize : Nat) : Int) := by
    rw [hsz]; exact calculateNumChunks_eq_ceil size.toNat
  refine ⟨m', locs, _, hok, hget, hceil, ?_, ?_⟩
  · simp [hceil]
  · intro h0
    subst h0
    constructor
    · rw [hceil]
      norm_num [ChunkSize]
    · have : CalculateNumChunks (0 : Int) = 0 := by decide
      simp [this]

/-- Witness for `uploadFile_chunk_count`: a 3-byte upload into the
one-node system yields one chunk. -/
theorem uploadFile_chunk_count_witness :
    (0 : Int) ≤ 3 ∧
    ∃ m' locs f, masterUploadFile genHEx mEx 100 "f" 3 = Except.ok (m', locs) ∧
      m'.getFile "f" = some f ∧
      f.chunkCount = ((((3 : Int).toNat + ChunkSize - 1) / ChunkSize : Nat) : Int) ∧
      f.chunks.length = f.chunkCount.toNat ∧
      ((3 : Int) = 0 → f.chunkCount = 0 ∧ f.chunks = []) :=
  ⟨by norm_num, uploadFile_chunk_count genHEx mEx 100 "f" 3 (by norm_num)⟩

/-- Counterexample to C5: `UploadFile` performs no validation.  With an
empty name (size 0) the call succeeds — it does not fail with
`InvalidArgument` — and a file record keyed by the empty name exists
afterwards; with a negative size (`-5`) the call also succeeds and
creates both a file record and a chunk record. -/
theorem uploadFile_validation_cex :
    (masterUploadFile genHEx mEx 100 "" 0).isOk = true ∧
    ((masterUploadFile genHEx mEx 100 "" 0).toOption.map
      (fun p => (p.1.getFile "").isSome)) = some true ∧
    (masterUploadFile genHEx mEx 100 "x" (-5)).isOk = true ∧
    ((masterUploadFile genHEx mEx 100 "x" (-5)).toOption.map
      (fun p => ((p.1.getFile "x").isSome,
                 (p.1.getChunk (genHEx "x" 0)).isSome))) = some (true, true) :=
  ⟨rfl, rfl, rfl, rfl⟩

/-- C5 (amended): the coordinator's `UploadFile` never fails — there is
no argument validation.  For an empty name or a negative size it
returns success and still creates (or overwrites) a file record under
that name, with `filesize = size` and
`chunk_count = CalculateNumChunks(size)`. -/
theorem uploadFile_no_validation (genH : String → Nat → String)
    (m : Metadata) (now : Nat) (nm : String) (size : Int)
    (_h : nm = "" ∨ size < 0) :
    ∃ m' locs, masterUploadFile genH m now nm size = Except.ok (m', locs) ∧
      ∃ f, m'.getFile nm = some f ∧ f.filesize = size ∧
        f.chunkCount = CalculateNumChunks size := by
  obtain ⟨m', locs, hok, hget, -, -⟩ := masterUploadFile_ok genH m now nm size
  exact ⟨m', locs, hok, _, hget, rfl, rfl⟩

/-- Witness for `uploadFile_no_validation` at the empty name. -/
theorem uploadFile_no_validation_witness :
    ("" = "" ∨ (0 : Int) < 0) ∧
    (∃ m' locs, masterUploadFile genHEx mEx 100 "" 0 = Except.ok (m', locs) ∧
      ∃ f, m'.getFile "" = some f ∧ f.filesize = 0 ∧
        f.chunkCount = CalculateNumChunks 0) :=
  ⟨Or.inl rfl, uploadFile_no_validation genHEx mEx 100 "" 0 (Or.inl rfl)⟩

/-- Counterexample to C4: with a reachable master, one placed replica
and a transport that fails every chunk-server write, the upload of
`[1,2,3]` as `"f"` still reports success, even though no replica stored
chunk 0 (the server at `"a"` does not have the chunk and the master
knows no location for it). -/
theorem upload_succeeds_without_replica_cex :
    (clientUploadFile genHEx true (fun _ => false) sysEx 100 [1, 2, 3] "f").2 =
      Except.ok () ∧
    ((alookup "a" (clientUploadFile genHEx true (fun _ => false) sysEx 100
        [1, 2, 3] "f").1.servers).map
      (fun st => st.hasChunk (genHEx "f" 0))) = some false ∧
    (((clientUploadFile genHEx true (fun _ => false) sysEx 100
        [1, 2, 3] "f").1.master.getChunk (genHEx "f" 0)).map
      (fun c => c.locations)) = some [] :=
  ⟨rfl, rfl, rfl⟩

/-- C4 (amended): the client's Upload reports success exactly when the
coordinator RPC succeeds.  Per-replica `WriteChunk` failures are logged
and skipped, never aborting the upload — even a chunk for which every
replica write failed does not prevent success; the only error surfaced
is a transport error to the coordinator. -/
theorem clientUpload_success_policy (genH : String → Nat → String)
    (net : String → Bool) (sys : SystemState) (now : Nat)
    (data : List Nat) (nm : String) :
    (clientUploadFile genH true net sys now data nm).2 = Except.ok () ∧
    (clientUploadFile genH false net sys now data nm).2 =
      Except.error DfsError.unavailable := by
  constructor
  · simp [clientUploadFile, masterUploadFile]
  · simp [clientUploadFile]

/-- Counterexample to C9: after `AddFile` the slice returned by
`ListFiles` aliases the live record, so a later `AddChunkToFile`
changes what the holder of the earlier slice observes. -/
theorem listFiles_snapshot_cex :
    (((MetadataH.new.addFile 0 "a" 5 1).addChunkToFile "a" "h1").deref
        (MetadataH.new.addFile 0 "a" 5 1).listFiles) ≠
      ((MetadataH.new.addFile 0 "a" 5 1).deref
        (MetadataH.new.addFile 0 "a" 5 1).listFiles) := by decide

/-- C9 (amended): `ListFiles` returns a fresh slice whose elements are
pointers to the live records.  Overwriting a file record via `AddFile`
allocates a new record and so does not change the contents observed
through a previously returned slice; but `AddChunkToFile` on a listed
file mutates the pointed-to record in place, and the previously
returned slice (which contains that pointer) observes the appended
handle rather than the snapshot value. -/
theorem listFiles_alias_behaviour (s : MetadataH)
    (hwf : ∀ p ∈ s.files.map Prod.snd, p < s.nextPtr) :
    (∀ (now : Nat) (nm : String) (size cnt : Int),
       (s.addFile now nm size cnt).deref s.listFiles = s.deref s.listFiles) ∧
    (∀ (nm hdl : String) (p : Nat) (f : FileMetadata),
       alookup nm s.files = some p → alookup p s.heap = some f →
       p ∈ s.listFiles ∧
       alookup p (s.addChunkToFile nm hdl).heap =
         some { f with chunks := f.chunks ++ [hdl] }) := by
  constructor
  · intro now nm size cnt
    unfold MetadataH.deref MetadataH.addFile MetadataH.listFiles
    apply List.map_congr_left
    intro p hp
    have hlt : p < s.nextPtr := hwf p hp
    exact alookup_aupsert_ne s.nextPtr p _ (by omega) s.heap
  · intro nm hdl p f hfile hheap
    constructor
    · exact List.mem_map.mpr ⟨(nm, p), alookup_some_mem hfile, rfl⟩
    · unfold MetadataH.addChunkToFile
      simp [hfile, hheap, alookup_aupsert_self]

/-- Witness for `listFiles_alias_behaviour` on the one-file heap. -/
theorem listFiles_alias_behaviour_witness :
    (∀ p ∈ (MetadataH.new.addFile 0 "a" 5 1).files.map Prod.snd,
       p < (MetadataH.new.addFile 0 "a" 5 1).nextPtr) ∧
    ((∀ (now : Nat) (nm : String) (size cnt : Int),
       ((MetadataH.new.addFile 0 "a" 5 1).addFile now nm size cnt).deref
           (MetadataH.new.addFile 0 "a" 5 1).listFiles =
         (MetadataH.new.addFile 0 "a" 5 1).deref
           (MetadataH.new.addFile 0 "a" 5 1).listFiles) ∧
     (∀ (nm hdl : String) (p : Nat) (f : FileMetadata),
       alookup nm (MetadataH.new.addFile 0 "a" 5 1).files = some p →
       alookup p (MetadataH.new.addFile 0 "a" 5 1).heap = some f →
       p ∈ (MetadataH.new.addFile 0 "a" 5 1).listFiles ∧
       alookup p ((MetadataH.new.addFile 0 "a" 5 1).addChunkToFile nm hdl).heap =
         some { f with chunks := f.chunks ++ [hdl] })) :=
  ⟨by decide, listFiles_alias_behaviour _ (by decide)⟩

/-- The selection loop only ever appends to its accumulator, and what it
appends is a subsequence of the live entries' addresses. -/
theorem availableLoop_acc (now : Nat) (k : Int) :
    ∀ (l : List (String × ChunkServerInfo)) (acc : List String),
    ∃ s, availableLoop now k acc l = acc ++ s ∧
      List.Sublist s ((l.filter
        (fun p => now - p.2.latestHeartbeat < 30)).map Prod.fst) := by
  intro l
  induction l with
  | nil => intro acc; exact ⟨[], by simp [availableLoop], by simp⟩
  | cons p rest ih =>
      obtain ⟨a, srv⟩ := p
      intro acc
      by_cases hl : now - srv.latestHeartbeat < 30
      · by_cases hbreak : ((acc ++ [a]).length : Int) ≥ k
        · refine ⟨[a], ?_, ?_⟩
          · simp only [availableLoop, if_pos hl, if_pos hbreak]
          · simp only [List.filter_cons, decide_eq_true_eq, if_pos hl,
              List.map_cons]
            exact (List.nil_sublist _).cons₂ a
        · obtain ⟨s, hs, hsub⟩ := ih (acc ++ [a])
          refine ⟨a :: s, ?_, ?_⟩
          · simp only [availableLoop, if_pos hl, if_neg hbreak]
            rw [hs]
            simp
          · simp only [List.filter_cons, decide_eq_true_eq, if_pos hl,
              List.map_cons]
            exact hsub.cons₂ a
      · obtain ⟨s, hs, hsub⟩ := ih acc
        refine ⟨s, ?_, ?_⟩
        · simp only [availableLoop, if_neg hl]
          exact hs
        · simp only [List.filter_cons, decide_eq_true_eq, if_neg hl]
          exact hsub

/-- Length bound of the selection loop: at most `max k 1` addresses are
returned (the break fires only after an append, so one address can be
returned even when `k ≤ 0`). -/
theorem availableLoop_length (now : Nat) (k : Int) :
    ∀ (l : List (String × ChunkServerInfo)) (acc : List String),
    ((acc.length : Int) < k ∨ acc = []) →
    (((availableLoop now k acc l).length : Int) ≤ max k 1) := by
  have h1 : k ≤ max k 1 := le_max_left k 1
  have h2 : (1 : Int) ≤ max k 1 := le_max_right k 1
  intro l
  induction l with
  | nil =>
      intro acc hinv
      simp only [availableLoop]
      rcases hinv with h | h
      · omega
      · subst h; simp
  | cons p rest ih =>
      obtain ⟨a, srv⟩ := p
      intro acc hinv
      by_cases hl : now - srv.latestHeartbeat < 30
      · by_cases hbreak : ((acc ++ [a]).length : Int) ≥ k
        · simp only [availableLoop, if_pos hl, if_pos hbreak]
          have hlen : ((acc ++ [a]).length : Int) = (acc.length : Int) + 1 := by
            simp
          rcases hinv with h | h
          · omega
          · subst h; simp
        · simp only [availableLoop, if_pos hl, if_neg hbreak]
          exact ih (acc ++ [a]) (Or.inl (by omega))
      · simp only [availableLoop, if_neg hl]
        exact ih acc hinv

/-- Counterexample to C3: with one live registered node,
`available_nodes(0)` returns that node's address — a list of length 1,
not the empty list, so the "size ≤ k" bound fails at `k = 0`. -/
theorem availableServers_zero_cex :
    mEx.getAvailableChunkServers 100 0 = ["a"] ∧
    ¬ (mEx.getAvailableChunkServers 100 0 = []) :=
  ⟨rfl, by decide⟩

/-- C3 (amended): for every integer `k` and every state whose registered
addresses are duplicate-free, `available_nodes(k)` returns
pairwise-distinct registered addresses whose heartbeat is strictly
within 30 seconds of `now`, of length at most the number of live
registered nodes and at most `max k 1` (for `k ≥ 1` this is the claimed
`≤ k`; for `k ≤ 0` the loop may return one address, because the break is
tested only after an append). -/
theorem getAvailableChunkServers_spec (m : Metadata) (now : Nat) (k : Int)
    (hnodup : (m.chunkServers.map Prod.fst).Nodup) :
    ((m.getAvailableChunkServers now k).Nodup) ∧
    (∀ a ∈ m.getAvailableChunkServers now k, ∃ srv,
       alookup a m.chunkServers = some srv ∧
       now - srv.latestHeartbeat < 30) ∧
    (((m.getAvailableChunkServers now k).length : Int) ≤ max k 1) ∧
    ((m.getAvailableChunkServers now k).length ≤
       (m.chunkServers.filter
         (fun p => now - p.2.latestHeartbeat < 30)).length) := by
  obtain ⟨s, hs, hsub⟩ := availableLoop_acc now k m.chunkServers []
  have hres : m.getAvailableChunkServers now k = s := by
    simpa [Metadata.getAvailableChunkServers] using hs
  have hsubl : List.Sublist s (m.chunkServers.map Prod.fst) :=
    hsub.trans ((List.filter_sublist m.chunkServers).map Prod.fst)
  refine ⟨?_, ?_, ?_, ?_⟩
  · rw [hres]
    exact hnodup.sublist hsubl
  · rw [hres]
    intro a ha
    have hmem : a ∈ (m.chunkServers.filter
        (fun p => now - p.2.latestHeartbeat < 30)).map Prod.fst :=
      hsub.mem ha
    obtain ⟨q, hq, hfst⟩ := List.mem_map.mp hmem
    obtain ⟨hql, hqlive⟩ := List.mem_filter.mp hq
    obtain ⟨a', srv⟩ := q
    obtain rfl : a' = a := hfst
    refine ⟨srv, alookup_eq_of_mem_nodup hql hnodup, ?_⟩
    simpa using hqlive
  · exact availableLoop_length now k m.chunkServers [] (Or.inr rfl)
  · rw [hres]
    simpa using hsub.length_le

/-- Witness for `getAvailableChunkServers_spec` on the one-node state
with `k = 3`. -/
theorem getAvailableChunkServers_spec_witness :
    ((mEx.chunkServers.map Prod.fst).Nodup) ∧
    (((mEx.getAvailableChunkServers 100 3).Nodup) ∧
     (∀ a ∈ mEx.getAvailableChunkServers 100 3, ∃ srv,
        alookup a mEx.chunkServers = some srv ∧
        100 - srv.latestHeartbeat < 30) ∧
     (((mEx.getAvailableChunkServers 100 3).length : Int) ≤ max 3 1) ∧
     ((mEx.getAvailableChunkServers 100 3).length ≤
        (mEx.chunkServers.filter
          (fun p => 100 - p.2.latestHeartbeat < 30)).length)) :=
  ⟨by decide, getAvailableChunkServers_spec mEx 100 3 (by decide)⟩

/-- Extracting a related element from a pointwise relation. -/
theorem forall2_exists_right {α β : Type} {R : α → β → Prop} :
    ∀ {l₁ : List α} {l₂ : List β}, List.Forall₂ R l₁ l₂ →
      ∀ a ∈ l₁, ∃ b ∈ l₂, R a b := by
  intro l₁ l₂ hfa
  induction hfa with
  | nil => intro a ha; simp at ha
  | cons hR htail ih =>
      intro a ha
      rcases List.mem_cons.mp ha with rfl | hmem
      · exact ⟨_, List.mem_cons_self _ _, hR⟩
      · obtain ⟨b, hb, hRb⟩ := ih a hmem
        exact ⟨b, List.mem_cons_of_mem _ hb, hRb⟩

/-- `collectLocations` either hits a handle without a chunk record and
fails with `internalErr` on such a handle, or every handle has a record
and it returns one placement per handle carrying that chunk's
locations and index. -/
theorem collectLocations_cases (m : Metadata) : ∀ hs : List String,
    (∃ h ∈ hs, m.getChunk h = none ∧
       collectLocations m hs = Except.error (DfsError.internalErr h)) ∨
    ((∀ h ∈ hs, (m.getChunk h).isSome) ∧
     ∃ locs, collectLocations m hs = Except.ok locs ∧
       List.Forall₂ (fun h loc => ∃ c, m.getChunk h = some c ∧
         loc = ChunkLocation.mk h c.locations c.chunkIndex) hs locs) := by
  intro hs
  induction hs with
  | nil =>
      right
      exact ⟨by simp, [], rfl, List.Forall₂.nil⟩
  | cons h rest ih =>
      cases hc : m.getChunk h with
      | none =>
          left
          refine ⟨h, List.mem_cons_self _ _, hc, ?_⟩
          simp [collectLocations, hc]
      | some c =>
          rcases ih with ⟨h', hmem, hnone, herr⟩ | ⟨hall, locs, hok, hfa⟩
          · left
            refine ⟨h', List.mem_cons_of_mem _ hmem, hnone, ?_⟩
            simp [collectLocations, hc, herr]
          · right
            refine ⟨?_, ChunkLocation.mk h c.locations c.chunkIndex :: locs,
              ?_, ?_⟩
            · intro h'' hmem''
              rcases List.mem_cons.mp hmem'' with rfl | hm
              · simp [hc]
              · exact hall h'' hm
            · simp [collectLocations, hc, hok]
            · exact List.Forall₂.cons ⟨c, hc, rfl⟩ hfa

/-- The success case of `DownloadFile`: when the file exists and every
listed handle has a chunk record, the call returns the unchanged state,
the file's size and one placement per handle. -/
theorem masterDownloadFile_ok_of_records (m : Metadata) (nm : String)
    (f : FileMetadata) (hget : m.getFile nm = some f)
    (hall : ∀ h ∈ f.chunks, (m.getChunk h).isSome) :
    ∃ locs, masterDownloadFile m nm = Except.ok (m, f.filesize, locs) ∧
      List.Forall₂ (fun h loc => ∃ c, m.getChunk h = some c ∧
        loc = ChunkLocation.mk h c.locations c.chunkIndex) f.chunks locs := by
  rcases collectLocations_cases m f.chunks with
    ⟨h, hmem, hnone, -⟩ | ⟨-, locs, hok, hfa⟩
  · have := hall h hmem
    simp [hnone] at this
  · exact ⟨locs, by simp [masterDownloadFile, hget, hok], hfa⟩

/-- C7: `DownloadFile(name)` fails with `NotFound` when no file record
exists; fails with `Internal` naming a handle of the file's chunk list
that has no chunk record when one is missing; otherwise returns the
file's size plus, per chunk, the currently known locations — and the
metadata state is returned unchanged. -/
theorem downloadFile_contract (m : Metadata) (nm : String) :
    (m.getFile nm = none →
       masterDownloadFile m nm = Except.error (DfsError.notFound nm)) ∧
    (∀ f, m.getFile nm = some f →
       ((∃ h ∈ f.chunks, m.getChunk h = none) →
          ∃ h ∈ f.chunks, m.getChunk h = none ∧
            masterDownloadFile m nm = Except.error (DfsError.internalErr h)) ∧
       ((∀ h ∈ f.chunks, (m.getChunk h).isSome) →
          ∃ locs, masterDownloadFile m nm = Except.ok (m, f.filesize, locs) ∧
            List.Forall₂ (fun h loc => ∃ c, m.getChunk h = some c ∧
              loc = ChunkLocation.mk h c.locations c.chunkIndex)
              f.chunks locs)) := by
  constructor
  · intro habs
    simp [masterDownloadFile, habs]
  · intro f hget
    constructor
    · intro hex
      rcases collectLocations_cases m f.chunks with
        ⟨h, hmem, hnone, herr⟩ | ⟨hall, -, -, -⟩
      · exact ⟨h, hmem, hnone, by simp [masterDownloadFile, hget, herr]⟩
      · obtain ⟨h, hmem, hnone⟩ := hex
        have := hall h hmem
        simp [hnone] at this
    · exact masterDownloadFile_ok_of_records m nm f hget

/-- Witness for `downloadFile_contract`: on `mDl`, downloading the
absent name `"nope"` yields `notFound`, while downloading `"f"`
succeeds. -/
theorem downloadFile_contract_witness :
    mDl.getFile "nope" = none ∧
    masterDownloadFile mDl "nope" = Except.error (DfsError.notFound "nope") ∧
    (masterDownloadFile mDl "f").isOk = true :=
  ⟨rfl, (downloadFile_contract mDl "nope").1 rfl, rfl⟩

/-- `AddChunkLocation` leaves every other chunk record unchanged. -/
theorem addChunkLocation_getChunk_other (m : Metadata) (hdl addr h' : String)
    (hne : h' ≠ hdl) :
    (m.addChunkLocation hdl addr).getChunk h' = m.getChunk h' := by
  unfold Metadata.addChunkLocation Metadata.getChunk
  cases hc : alookup hdl m.chunks with
  | none => rfl
  | some c =>
      by_cases hmem : addr ∈ c.locations
      · simp [hmem]
      · simp [hmem, alookup_aupsert_ne hdl h' _ hne.symm]

/-- `AddChunkLocation` on an existing record: the address is appended
unless already present. -/
theorem addChunkLocation_getChunk_self (m : Metadata) (hdl addr : String)
    (c : ChunkMetadata) (hc : m.getChunk hdl = some c) :
    (m.addChunkLocation hdl addr).getChunk hdl =
      some (if addr ∈ c.locations then c
            else { c with locations := c.locations ++ [addr] }) := by
  unfold Metadata.addChunkLocation Metadata.getChunk
  rw [show alookup hdl m.chunks = some c from hc]
  by_cases hmem : addr ∈ c.locations
  · simp [hmem, show alookup hdl m.chunks = some c from hc]
  · simp [hmem, alookup_aupsert_self]

/-- `AddChunkLocation` does not touch the file map. -/
theorem addChunkLocation_getFile (m : Metadata) (hdl addr nm : String) :
    (m.addChunkLocation hdl addr).getFile nm = m.getFile nm := by
  unfold Metadata.getFile
  rw [addChunkLocation_files]

/-- Once the address is recorded for the chunk, further reports are
no-ops. -/
theorem iterateReportChunk_fixed (hdl addr : String) :
    ∀ (n : Nat) (m : Metadata) (c : ChunkMetadata),
      m.getChunk hdl = some c → addr ∈ c.locations →
      iterateReportChunk m hdl addr n = m := by
  intro n
  induction n with
  | zero => intro m c _ _; rfl
  | succ n ih =>
      intro m c hc hmem
      have hrep : (masterReportChunk m hdl addr).1 = m := by
        simp only [masterReportChunk, Metadata.addChunkLocation]
        rw [show alookup hdl m.chunks = some c from hc]
        simp [hmem]
      simp only [iterateReportChunk]
      rw [hrep]
      exact ih m c hc hmem

/-- C6: `ReportChunk(addr, handle)` is idempotent.  In a state whose
chunk record for `handle` holds `addr` at most once (an invariant of
the code, since locations grow only through the deduplicating
`AddChunkLocation`), any `N ≥ 1` reports with the same pair produce the
same state as a single report and leave exactly one membership of
`addr` in the chunk's location set; and a subsequent `DownloadFile` of
a file containing that handle (all of whose handles have chunk records)
succeeds and returns a placement for the handle whose addresses contain
`addr`. -/
theorem reportChunk_idempotent (m : Metadata) (hdl addr nm : String)
    (c : ChunkMetadata) (f : FileMetadata)
    (hc : m.getChunk hdl = some c) (hcount : c.locations.count addr ≤ 1)
    (hf : m.getFile nm = some f) (hmem : hdl ∈ f.chunks)
    (hall : ∀ h ∈ f.chunks, (m.getChunk h).isSome)
    (N : Nat) (hN : 1 ≤ N) :
    (iterateReportChunk m hdl addr N = iterateReportChunk m hdl addr 1) ∧
    (∃ c', (iterateReportChunk m hdl addr N).getChunk hdl = some c' ∧
       c'.locations.count addr = 1 ∧ addr ∈ c'.locations) ∧
    (∃ locs, masterDownloadFile (iterateReportChunk m hdl addr N) nm =
        Except.ok (iterateReportChunk m hdl addr N, f.filesize, locs) ∧
      ∃ loc ∈ locs, loc.chunkHandle = hdl ∧
        addr ∈ loc.chunkServerAddresses) := by
  obtain ⟨n, rfl⟩ : ∃ n, N = n + 1 := ⟨N - 1, by omega⟩
  have hself := addChunkLocation_getChunk_self m hdl addr c hc
  have hc1get : ((masterReportChunk m hdl addr).1).getChunk hdl =
      some (if addr ∈ c.locations then c
            else { c with locations := c.locations ++ [addr] }) := hself
  have hmem1 : addr ∈ (if addr ∈ c.locations then c
      else { c with locations := c.locations ++ [addr] }).locations := by
    by_cases hmemc : addr ∈ c.locations
    · simp [hmemc]
    · simp [hmemc]
  have hcount1 : (if addr ∈ c.locations then c
      else { c with locations := c.locations ++ [addr] }).locations.count addr
        = 1 := by
    by_cases hmemc : addr ∈ c.locations
    · have hpos : 0 < c.locations.count addr := List.count_pos_iff.mpr hmemc
      simp only [if_pos hmemc]
      omega
    · have h0 : c.locations.count addr = 0 := by
        exact List.count_eq_zero.mpr hmemc
      simp [hmemc, List.count_append, h0]
  have hstable : iterateReportChunk m hdl addr (n + 1) =
      (masterReportChunk m hdl addr).1 := by
    simp only [iterateReportChunk]
    exact iterateReportChunk_fixed hdl addr n _ _ hc1get hmem1
  have hone : iterateReportChunk m hdl addr 1 =
      (masterReportChunk m hdl addr).1 := rfl
  have hf1 : ((masterReportChunk m hdl addr).1).getFile nm = some f := by
    rw [show (masterReportChunk m hdl addr).1 =
        m.addChunkLocation hdl addr from rfl]
    rw [addChunkLocation_getFile]
    exact hf
  have hall1 : ∀ h ∈ f.chunks,
      (((masterReportChunk m hdl addr).1).getChunk h).isSome := by
    intro h hm
    by_cases he : h = hdl
    · subst he; simp [hc1get]
    · rw [show (masterReportChunk m hdl addr).1 =
          m.addChunkLocation hdl addr from rfl]
      rw [addChunkLocation_getChunk_other m hdl addr h he]
      exact hall h hm
  refine ⟨by rw [hstable, hone], ⟨_, by rw [hstable]; exact hc1get,
    hcount1, hmem1⟩, ?_⟩
  rw [hstable]
  obtain ⟨locs, hok, hfa⟩ :=
    masterDownloadFile_ok_of_records (masterReportChunk m hdl addr).1 nm f hf1 hall1
  refine ⟨locs, hok, ?_⟩
  obtain ⟨loc, hlocmem, c'', hc'', hloceq⟩ := forall2_exists_right hfa hdl hmem
  have hceq : c'' = (if addr ∈ c.locations then c
      else { c with locations := c.locations ++ [addr] }) := by
    rw [hc1get] at hc''
    exact (Option.some.inj hc'').symm
  refine ⟨loc, hlocmem, by rw [hloceq], ?_⟩
  rw [hloceq]
  show addr ∈ c''.locations
  rw [hceq]
  exact hmem1

/-- Witness for `reportChunk_idempotent`: three reports of
`("a", "h0")` on `mRp` behave as one, and the following download of
`"f"` lists `"a"` for chunk `"h0"`. -/
theorem reportChunk_idempotent_witness :
    (mRp.getChunk "h0" = some ⟨"h0", [], 1, "f", 0⟩ ∧
     ([] : List String).count "a" ≤ 1 ∧
     mRp.getFile "f" = some ⟨"f", 3, 1, ["h0"], 0⟩ ∧
     (1 : Nat) ≤ 3) ∧
    ((iterateReportChunk mRp "h0" "a" 3 = iterateReportChunk mRp "h0" "a" 1) ∧
     (∃ c', (iterateReportChunk mRp "h0" "a" 3).getChunk "h0" = some c' ∧
        c'.locations.count "a" = 1 ∧ "a" ∈ c'.locations) ∧
     (∃ locs, masterDownloadFile (iterateReportChunk mRp "h0" "a" 3) "f" =
         Except.ok (iterateReportChunk mRp "h0" "a" 3,
           (⟨"f", 3, 1, ["h0"], 0⟩ : FileMetadata).filesize, locs) ∧
       ∃ loc ∈ locs, loc.chunkHandle = "h0" ∧
         "a" ∈ loc.chunkServerAddresses)) :=
  ⟨⟨rfl, by decide, rfl, by decide⟩,
   reportChunk_idempotent mRp "h0" "a" "f" ⟨"h0", [], 1, "f", 0⟩
     ⟨"f", 3, 1, ["h0"], 0⟩ rfl (by decide) rfl (by decide)
     (by decide) 3 (by decide)⟩

/-- Writing one handle does not disturb reads of another. -/
theorem readChunk_writeChunk_other (st : Storage) (hdl hdl' : String)
    (d : List Nat) (hne : hdl' ≠ hdl) :
    (st.writeChunk hdl d).readChunk hdl' = st.readChunk hdl' := by
  have hdisk : alookup hdl' (st.writeChunk hdl d).disk = alookup hdl' st.disk := by
    unfold Storage.writeChunk
    exact alookup_aupsert_ne hdl hdl' d hne.symm st.disk
  have hchunks : (hdl' ∈ (st.writeChunk hdl d).chunks) ↔ hdl' ∈ st.chunks := by
    unfold Storage.writeChunk
    by_cases hc : hdl ∈ st.chunks <;> simp [hc, hne]
  unfold Storage.readChunk
  by_cases hm : hdl' ∈ st.chunks
  · simp [hm, hchunks.mpr hm, hdisk]
  · have hm2 : ¬ hdl' ∈ (st.writeChunk hdl d).chunks := fun h => hm (hchunks.mp h)
    simp [hm, hm2]

/-- A write makes the same handle readable with exactly the written
bytes. -/
theorem readChunk_writeChunk_self (st : Storage) (hdl : String)
    (d : List Nat) :
    (st.writeChunk hdl d).readChunk hdl = Except.ok d := by
  by_cases hc : hdl ∈ st.chunks
  · simp [Storage.readChunk, Storage.writeChunk, hc, alookup_aupsert_self]
  · simp [Storage.readChunk, Storage.writeChunk, hc, alookup_aupsert_self]

/-- Effect of fanning one chunk out to a duplicate-free list of
reachable, running replica addresses, starting from a chunk record
with locations `acc` disjoint from those addresses: the master's file
map is untouched, the chunk's location list becomes `acc ++ as`, other
chunk records and other handles' reads are untouched, every listed
replica ends up serving the chunk bytes, and the set of running
servers is unchanged. -/
theorem writeFold_effect (net : String → Bool) (hdl : String)
    (data : List Nat) :
    ∀ (as : List String) (sys : SystemState) (acc : List String)
      (v : Int) (fn : String) (idx : Int),
    as.Nodup →
    (∀ a ∈ as, net a = true ∧ (alookup a sys.servers).isSome) →
    sys.master.getChunk hdl = some ⟨hdl, acc, v, fn, idx⟩ →
    (∀ a ∈ as, a ∉ acc) →
    ((∀ nm, (as.foldl (fun s a => writeChunkToServer net s a hdl data)
        sys).master.getFile nm = sys.master.getFile nm) ∧
     (as.foldl (fun s a => writeChunkToServer net s a hdl data)
        sys).master.getChunk hdl = some ⟨hdl, acc ++ as, v, fn, idx⟩ ∧
     (∀ h', h' ≠ hdl →
        (as.foldl (fun s a => writeChunkToServer net s a hdl data)
          sys).master.getChunk h' = sys.master.getChunk h') ∧
     (∀ a ∈ as, ∃ st, alookup a (as.foldl
          (fun s a => writeChunkToServer net s a hdl data) sys).servers =
            some st ∧ st.readChunk hdl = Except.ok data) ∧
     (∀ a h', h' ≠ hdl →
        (alookup a (as.foldl (fun s a => writeChunkToServer net s a hdl data)
            sys).servers).map (fun st => st.readChunk h') =
          (alookup a sys.servers).map (fun st => st.readChunk h')) ∧
     (∀ a, (alookup a (as.foldl
         (fun s a => writeChunkToServer net s a hdl data) sys).servers).isSome =
       (alookup a sys.servers).isSome) ∧
     (∀ a', a' ∉ as → alookup a' (as.foldl
         (fun s a => writeChunkToServer net s a hdl data) sys).servers =
       alookup a' sys.servers)) := by
  intro as
  induction as with
  | nil =>
      intro sys acc v fn idx _ _ hrec _
      refine ⟨fun nm => rfl, by simpa using hrec, fun h' _ => rfl,
        by simp, fun a h' _ => rfl, fun a => rfl, fun a' _ => rfl⟩
  | cons a rest ih =>
      intro sys acc v fn idx hnd hsrv hrec hdisj
      obtain ⟨hneta, hsomea⟩ := hsrv a (List.mem_cons_self _ _)
      obtain ⟨st, hst⟩ := Option.isSome_iff_exists.mp hsomea
      have hnotrest : a ∉ rest := (List.nodup_cons.mp hnd).1
      have hndrest : rest.Nodup := (List.nodup_cons.mp hnd).2
      -- the one-step state
      have hstep : writeChunkToServer net sys a hdl data =
          { master := sys.master.addChunkLocation hdl a
            servers := aupsert a (st.writeChunk hdl data) sys.servers } := by
        unfold writeChunkToServer
        rw [if_pos (by simp [hneta]), hst]
        rfl
      have hanotacc : a ∉ acc := hdisj a (List.mem_cons_self _ _)
      have hrec1 : (sys.master.addChunkLocation hdl a).getChunk hdl =
          some ⟨hdl, acc ++ [a], v, fn, idx⟩ := by
        rw [addChunkLocation_getChunk_self sys.master hdl a _ hrec]
        simp [hanotacc]
      have hsrv1 : ∀ b ∈ rest, net b = true ∧
          (alookup b (aupsert a (st.writeChunk hdl data) sys.servers)).isSome := by
        intro b hb
        obtain ⟨hn, hs⟩ := hsrv b (List.mem_cons_of_mem _ hb)
        have hba : a ≠ b := fun he => hnotrest (he ▸ hb)
        rw [alookup_aupsert_ne a b _ hba]
        exact ⟨hn, hs⟩
      have hdisj1 : ∀ b ∈ rest, b ∉ acc ++ [a] := by
        intro b hb
        have hba : b ≠ a := fun he => hnotrest (he ▸ hb)
        simp [hdisj b (List.mem_cons_of_mem _ hb), hba]
      have hfold : (a :: rest).foldl
          (fun s a => writeChunkToServer net s a hdl data) sys =
          rest.foldl (fun s a => writeChunkToServer net s a hdl data)
            { master := sys.master.addChunkLocation hdl a
              servers := aupsert a (st.writeChunk hdl data) sys.servers } := by
        simp [List.foldl_cons, hstep]
      obtain ⟨ihfile, ihrec, ihother, ihserve, ihframe, ihsome, ihuntouched⟩ :=
        ih { master := sys.master.addChunkLocation hdl a
             servers := aupsert a (st.writeChunk hdl data) sys.servers }
          (acc ++ [a]) v fn idx hndrest hsrv1 hrec1 hdisj1
      rw [hfold]
      refine ⟨?_, ?_, ?_, ?_, ?_, ?_, ?_⟩
      · intro nm
        rw [ihfile nm]
        exact addChunkLocation_getFile sys.master hdl a nm
      · rw [ihrec]
        simp
      · intro h' hne
        rw [ihother h' hne]
        exact addChunkLocation_getChunk_other sys.master hdl a h' hne
      · intro b hb
        rcases List.mem_cons.mp hb with rfl | hbr
        · refine ⟨st.writeChunk hdl data, ?_, readChunk_writeChunk_self st hdl data⟩
          rw [ihuntouched b hnotrest]
          exact alookup_aupsert_self b _ sys.servers
        · exact ihserve b hbr
      · intro b h' hne
        rw [ihframe b h' hne]
        by_cases hba : b = a
        · subst hba
          rw [alookup_aupsert_self b _ sys.servers, hst]
          simp [readChunk_writeChunk_other st hdl h' data hne]
        · rw [alookup_aupsert_ne a b _ (fun he => hba he.symm)]
      · intro b
        rw [ihsome b]
        by_cases hba : b = a
        · subst hba
          rw [alookup_aupsert_self b _ sys.servers, hst]
          rfl
        · rw [alookup_aupsert_ne a b _ (fun he => hba he.symm)]
      · intro a' ha'
        have ha'r : a' ∉ rest := fun h => ha' (List.mem_cons_of_mem _ h)
        have ha'a : a' ≠ a := fun he => ha' (he ▸ List.mem_cons_self _ _)
        rw [ihuntouched a' ha'r]
        exact alookup_aupsert_ne a a' _ (fun he => ha'a he.symm) sys.servers

/-- Effect of the client's chunk fan-out over a whole placement list
(one placement per index in `js`, all carrying the replica list `A`):
every listed chunk record gains exactly the locations `A`, every
replica serves every chunk's slice, and everything else — the file
map, other chunk records, other handles' reads, the set of running
servers — is untouched. -/
theorem uploadFold_effect (genH : String → Nat → String)
    (net : String → Bool) (B : List Nat) (X : String) (A : List String) :
    ∀ (js : List Nat) (sys : SystemState),
    A.Nodup → js.Nodup →
    (∀ a ∈ A, net a = true ∧ (alookup a sys.servers).isSome) →
    (∀ j1 ∈ js, ∀ j2 ∈ js, genH X j1 = genH X j2 → j1 = j2) →
    (∀ j ∈ js, sys.master.getChunk (genH X j) =
       some ⟨genH X j, [], 1, X, (j : Int)⟩) →
    ((∀ nm, ((js.map (fun j => ChunkLocation.mk (genH X j) A (j : Int))).foldl
        (fun s loc => clientUploadChunk net B loc s) sys).master.getFile nm =
          sys.master.getFile nm) ∧
     (∀ j ∈ js, ((js.map (fun j => ChunkLocation.mk (genH X j) A (j : Int))).foldl
        (fun s loc => clientUploadChunk net B loc s) sys).master.getChunk
          (genH X j) = some ⟨genH X j, A, 1, X, (j : Int)⟩) ∧
     (∀ h', (∀ j ∈ js, h' ≠ genH X j) →
        ((js.map (fun j => ChunkLocation.mk (genH X j) A (j : Int))).foldl
          (fun s loc => clientUploadChunk net B loc s) sys).master.getChunk h' =
            sys.master.getChunk h') ∧
     (∀ j ∈ js, ∀ a ∈ A, ∃ st, alookup a
          ((js.map (fun j => ChunkLocation.mk (genH X j) A (j : Int))).foldl
            (fun s loc => clientUploadChunk net B loc s) sys).servers = some st ∧
        st.readChunk (genH X j) =
          Except.ok ((B.drop (j * ChunkSize)).take ChunkSize)) ∧
     (∀ a h', (∀ j ∈ js, h' ≠ genH X j) →
        (alookup a ((js.map (fun j => ChunkLocation.mk (genH X j) A (j : Int))).foldl
            (fun s loc => clientUploadChunk net B loc s) sys).servers).map
          (fun st => st.readChunk h') =
          (alookup a sys.servers).map (fun st => st.readChunk h')) ∧
     (∀ a, (alookup a ((js.map (fun j => ChunkLocation.mk (genH X j) A (j : Int))).foldl
         (fun s loc => clientUploadChunk net B loc s) sys).servers).isSome =
       (alookup a sys.servers).isSome)) := by
  intro js
  induction js with
  | nil =>
      intro sys _ _ _ _ _
      exact ⟨fun nm => rfl, by simp, fun h' _ => rfl, by simp,
        fun a h' _ => rfl, fun a => rfl⟩
  | cons j js' ih =>
      intro sys hA hjnd hsrv hinj hrecs
      have hjnot : j ∉ js' := (List.nodup_cons.mp hjnd).1
      have hjnd' : js'.Nodup := (List.nodup_cons.mp hjnd).2
      have hne' : ∀ j' ∈ js', genH X j' ≠ genH X j := by
        intro j' hj' he
        exact hjnot ((hinj j' (List.mem_cons_of_mem _ hj') j
          (List.mem_cons_self _ _) he) ▸ hj')
      -- the head step is a fan-out of chunk j over A
      have hstep : clientUploadChunk net B
          (ChunkLocation.mk (genH X j) A (j : Int)) sys =
          A.foldl (fun s a => writeChunkToServer net s a (genH X j)
            ((B.drop (j * ChunkSize)).take ChunkSize)) sys := rfl
      obtain ⟨wfile, wrec, wother, wserve, wframe, wsome, -⟩ :=
        writeFold_effect net (genH X j)
          ((B.drop (j * ChunkSize)).take ChunkSize) A sys [] 1 X (j : Int)
          hA (hsrv) (hrecs j (List.mem_cons_self _ _)) (by simp)
      set sys₁ := A.foldl (fun s a => writeChunkToServer net s a (genH X j)
        ((B.drop (j * ChunkSize)).take ChunkSize)) sys with hsys₁
      have hsrv1 : ∀ a ∈ A, net a = true ∧ (alookup a sys₁.servers).isSome := by
        intro a ha
        obtain ⟨hn, hs⟩ := hsrv a ha
        exact ⟨hn, by rw [wsome a]; exact hs⟩
      have hinj' : ∀ j1 ∈ js', ∀ j2 ∈ js', genH X j1 = genH X j2 → j1 = j2 := by
        intro j1 h1 j2 h2
        exact hinj j1 (List.mem_cons_of_mem _ h1) j2 (List.mem_cons_of_mem _ h2)
      have hrecs1 : ∀ j' ∈ js', sys₁.master.getChunk (genH X j') =
          some ⟨genH X j', [], 1, X, (j' : Int)⟩ := by
        intro j' hj'
        rw [wother (genH X j') (hne' j' hj')]
        exact hrecs j' (List.mem_cons_of_mem _ hj')
      obtain ⟨ifile, irec, iother, iserve, iframe, isome⟩ :=
        ih sys₁ hA hjnd' hsrv1 hinj' hrecs1
      have hfold : ((j :: js').map
            (fun j => ChunkLocation.mk (genH X j) A (j : Int))).foldl
          (fun s loc => clientUploadChunk net B loc s) sys =
          (js'.map (fun j => ChunkLocation.mk (genH X j) A (j : Int))).foldl
            (fun s loc => clientUploadChunk net B loc s) sys₁ := by
        simp only [List.map_cons, List.foldl_cons, hstep, hsys₁]
      rw [hfold]
      refine ⟨?_, ?_, ?_, ?_, ?_, ?_⟩
      · intro nm
        rw [ifile nm, wfile nm]
      · intro j'' hj''
        rcases List.mem_cons.mp hj'' with rfl | hj'm
        · rw [iother (genH X j'') (fun j' hj' => (hne' j' hj').symm)]
          rw [wrec]
          simp
        · exact irec j'' hj'm
      · intro h' hall
        rw [iother h' (fun j' hj' => hall j' (List.mem_cons_of_mem _ hj'))]
        exact wother h' (hall j (List.mem_cons_self _ _))
      · intro j'' hj'' a ha
        rcases List.mem_cons.mp hj'' with rfl | hj'm
        · obtain ⟨st, hstl, hstred⟩ := wserve a ha
          have hmapeq := iframe a (genH X j'')
            (fun j' hj' => (hne' j' hj').symm)
          rw [hstl] at hmapeq
          cases hlk : alookup a ((js'.map
              (fun j => ChunkLocation.mk (genH X j) A (j : Int))).foldl
              (fun s loc => clientUploadChunk net B loc s) sys₁).servers with
          | none => rw [hlk] at hmapeq; simp at hmapeq
          | some st' =>
              rw [hlk] at hmapeq
              simp only [Option.map_some'] at hmapeq
              exact ⟨st', rfl, by rw [Option.some.inj hmapeq, hstred]⟩
        · exact iserve j'' hj'm a ha
      · intro a h' hall
        rw [iframe a h' (fun j' hj' => hall j' (List.mem_cons_of_mem _ hj'))]
        exact wframe a h' (hall j (List.mem_cons_self _ _))
      · intro a
        rw [isome a, wsome a]

/-- The allocation loop leaves chunk records with unrelated handles
unchanged. -/
theorem uploadChunksLoop_chunks_frame (genH : String → Nat → String)
    (now : Nat) (nm : String) : ∀ (n i : Nat) (m : Metadata) (h' : String),
    (∀ j ∈ List.range' i n, h' ≠ genH nm j) →
    alookup h' (uploadChunksLoop genH now nm i n m).1.chunks =
      alookup h' m.chunks := by
  intro n
  induction n with
  | zero => intro i m h' _; rfl
  | succ n ih =>
      intro i m h' hall
      have hmemi : i ∈ List.range' i (n + 1) := by
        rw [List.mem_range'_1]; omega
      have htail : ∀ j ∈ List.range' (i + 1) n, h' ≠ genH nm j := by
        intro j hj
        refine hall j ?_
        rw [List.mem_range'_1] at hj ⊢
        omega
      simp only [uploadChunksLoop]
      rw [ih (i + 1) _ h' htail]
      rw [addChunkToFile_chunks]
      exact alookup_aupsert_ne (genH nm i) h' _
        (fun he => (hall i hmemi) he.symm) m.chunks

/-- After the allocation loop, each derived handle (assuming the
handles of the processed range are pairwise distinct) maps to a fresh
chunk record: empty locations, version 1, the file name and its
index. -/
theorem uploadChunksLoop_chunks_self (genH : String → Nat → String)
    (now : Nat) (nm : String) : ∀ (n i : Nat) (m : Metadata),
    (∀ j1 ∈ List.range' i n, ∀ j2 ∈ List.range' i n,
       genH nm j1 = genH nm j2 → j1 = j2) →
    ∀ j ∈ List.range' i n,
      alookup (genH nm j) (uploadChunksLoop genH now nm i n m).1.chunks =
        some ⟨genH nm j, [], 1, nm, (j : Int)⟩ := by
  intro n
  induction n with
  | zero => intro i m _ j hj; simp at hj
  | succ n ih =>
      intro i m hinj j hj
      have hmemi : i ∈ List.range' i (n + 1) := by
        rw [List.mem_range'_1]; omega
      have hsub : ∀ j' ∈ List.range' (i + 1) n, j' ∈ List.range' i (n + 1) := by
        intro j' hj'
        rw [List.mem_range'_1] at hj' ⊢
        omega
      rw [List.range'_succ i n 1] at hj
      simp only [uploadChunksLoop]
      rcases List.mem_cons.mp hj with rfl | hjm
      · have hframe : ∀ j' ∈ List.range' (j + 1) n, genH nm j ≠ genH nm j' := by
          intro j' hj' he
          have := hinj j hmemi j' (hsub j' hj') he
          rw [List.mem_range'_1] at hj'
          omega
        rw [uploadChunksLoop_chunks_frame genH now nm n (j + 1) _ _ hframe]
        rw [addChunkToFile_chunks]
        exact alookup_aupsert_self (genH nm j) _ m.chunks
      · exact ih (i + 1) _
          (fun j1 h1 j2 h2 => hinj j1 (hsub j1 h1) j2 (hsub j2 h2)) j hjm

/-- `collectLocations` on a list of handles whose records all exist
returns the corresponding placements verbatim. -/
theorem collectLocations_mapped (m : Metadata) (hfun : Nat → String)
    (A : List String) (nm : String) : ∀ (js : List Nat),
    (∀ j ∈ js, m.getChunk (hfun j) = some ⟨hfun j, A, 1, nm, (j : Int)⟩) →
    collectLocations m (js.map hfun) =
      Except.ok (js.map (fun j => ChunkLocation.mk (hfun j) A (j : Int))) := by
  intro js
  induction js with
  | nil => intro _; rfl
  | cons j js' ih =>
      intro hrec
      have hih := ih (fun j' hj' => hrec j' (List.mem_cons_of_mem _ hj'))
      simp only [List.map_cons, collectLocations,
        hrec j (List.mem_cons_self _ _), hih]

/-- Reassembly: starting from a buffer whose first `k` chunk slots
already hold the corresponding bytes of `B` (and whose tail pads the
length to `B.length`), downloading the placements for indices
`k, …, k+n-1` — each returning the matching slice of `B` — fills the
buffer to exactly `B`. -/
theorem copyInto_step (B S : List Nat) (k : Nat)
    (hS : S.length = B.length - k * ChunkSize) :
    copyInto (B.take (k * ChunkSize) ++ S) (k * ChunkSize)
        ((B.drop (k * ChunkSize)).take ChunkSize) =
      B.take ((k + 1) * ChunkSize) ++
        S.drop ((B.drop (k * ChunkSize)).take ChunkSize).length := by
  have hchlen : ((B.drop (k * ChunkSize)).take ChunkSize).length =
      min ChunkSize (B.length - k * ChunkSize) := by
    simp [List.length_take, List.length_drop]
  by_cases hkle : k * ChunkSize ≤ B.length
  · have htklen : (B.take (k * ChunkSize)).length = k * ChunkSize := by
      simp [List.length_take]
      omega
    have hbuflen : (B.take (k * ChunkSize) ++ S).length = B.length := by
      simp only [List.length_append, htklen]
      omega
    unfold copyInto
    rw [hbuflen]
    rw [List.take_left' htklen]
    have htake2 : ((B.drop (k * ChunkSize)).take ChunkSize).take
        (B.length - k * ChunkSize) = (B.drop (k * ChunkSize)).take ChunkSize :=
      List.take_of_length_le (by rw [hchlen]; omega)
    rw [htake2]
    have hdrop2 : (B.take (k * ChunkSize) ++ S).drop
        (k * ChunkSize + ((B.drop (k * ChunkSize)).take ChunkSize).length) =
        S.drop ((B.drop (k * ChunkSize)).take ChunkSize).length := by
      rw [show (B.take (k * ChunkSize) ++ S).drop
            (k * ChunkSize + ((B.drop (k * ChunkSize)).take ChunkSize).length) =
          ((B.take (k * ChunkSize) ++ S).drop (k * ChunkSize)).drop
            ((B.drop (k * ChunkSize)).take ChunkSize).length from
        (List.drop_drop _ _ _).symm]
      rw [List.drop_left' htklen]
    rw [hdrop2]
    rw [List.append_assoc]
    have happ : B.take (k * ChunkSize) ++ (B.drop (k * ChunkSize)).take ChunkSize
        = B.take ((k + 1) * ChunkSize) := by
      rw [show (k + 1) * ChunkSize = k * ChunkSize + ChunkSize from by ring]
      exact (List.take_add B (k * ChunkSize) ChunkSize).symm
    rw [← List.append_assoc, happ]
  · have hS0 : S = [] := List.eq_nil_of_length_eq_zero (by omega)
    have hch0 : (B.drop (k * ChunkSize)).take ChunkSize = [] := by
      rw [List.drop_of_length_le (by omega : B.length ≤ k * ChunkSize)]
      rfl
    have htkB : B.take (k * ChunkSize) = B :=
      List.take_of_length_le (by omega)
    have htkB1 : B.take ((k + 1) * ChunkSize) = B :=
      List.take_of_length_le (le_trans (by omega)
        (Nat.mul_le_mul_right ChunkSize (by omega : k ≤ k + 1)))
    subst hS0
    unfold copyInto
    simp [hch0, htkB, htkB1, List.drop_of_length_le (by omega : B.length ≤ k * ChunkSize)]

/-- Reassembly of the download loop, by induction over the remaining
placements. -/
theorem downloadLoop_reassemble (net : String → Bool) (sys : SystemState)
    (B : List Nat) (mkloc : Nat → ChunkLocation) :
    ∀ (n k : Nat) (S : List Nat),
    (∀ j ∈ List.range' k n, (mkloc j).chunkIndex = (j : Int) ∧
       clientDownloadChunk net sys (mkloc j).chunkHandle
         (mkloc j).chunkServerAddresses =
           Except.ok ((B.drop (j * ChunkSize)).take ChunkSize)) →
    S.length = B.length - k * ChunkSize →
    (k + n) * ChunkSize ≥ B.length →
    downloadLoop net sys ((List.range' k n).map mkloc)
        (B.take (k * ChunkSize) ++ S) = Except.ok B := by
  intro n
  induction n with
  | zero =>
      intro k S _ hS hend
      have hkB : B.length ≤ k * ChunkSize := by
        have hk0 : (k + 0) * ChunkSize = k * ChunkSize := by ring
        omega
      have hS0 : S = [] := List.eq_nil_of_length_eq_zero (by omega)
      subst hS0
      simp [downloadLoop, List.take_of_length_le hkB]
  | succ n ih =>
      intro k S hchunks hS hend
      have hmemk : k ∈ List.range' k (n + 1) := by
        rw [List.mem_range'_1]; omega
      obtain ⟨hidx, hdl⟩ := hchunks k hmemk
      rw [List.range'_succ k n 1]
      simp only [List.map_cons, downloadLoop, hdl]
      have hidxnat : (mkloc k).chunkIndex.toNat = k := by
        rw [hidx]; exact Int.toNat_natCast k
      rw [hidxnat]
      rw [copyInto_step B S k hS]
      apply ih (k + 1) (S.drop ((B.drop (k * ChunkSize)).take ChunkSize).length)
      · intro j hj
        refine hchunks j ?_
        rw [List.mem_range'_1] at hj ⊢
        omega
      · have hchlen : ((B.drop (k * ChunkSize)).take ChunkSize).length =
            min ChunkSize (B.length - k * ChunkSize) := by
          simp [List.length_take, List.length_drop]
        rw [List.length_drop, hchlen, hS,
          show (k + 1) * ChunkSize = k * ChunkSize + ChunkSize from by ring]
        rcases le_total ChunkSize (B.length - k * ChunkSize) with hmin | hmin
        · rw [min_eq_left hmin]; omega
        · rw [min_eq_right hmin]; omega
      · have : (k + 1 + n) * ChunkSize = (k + (n + 1)) * ChunkSize := by ring
        omega

/-- The available-server list is duplicate-free whenever the registered
addresses are. -/
theorem getAvailableChunkServers_nodup (m : Metadata) (now : Nat) (k : Int)
    (hnodup : (m.chunkServers.map Prod.fst).Nodup) :
    (m.getAvailableChunkServers now k).Nodup := by
  obtain ⟨s, hs, hsub⟩ := availableLoop_acc now k m.chunkServers []
  have hres : m.getAvailableChunkServers now k = s := by
    simpa [Metadata.getAvailableChunkServers] using hs
  rw [hres]
  exact hnodup.sublist
    (hsub.trans ((List.filter_sublist m.chunkServers).map Prod.fst))

/-- C1: for every byte sequence `B` of length at most `10 · ChunkSize`
and every name `X` whose derived handles are pairwise distinct over the
file's chunk indices, uploading `B` under `X` and then downloading `X`
— with the coordinator reachable, at least one replica placed, and
every placed replica reachable and running — yields exactly `B`: the
client slices `B` at 64 MiB boundaries into `ceil(|B| / ChunkSize)`
chunks during upload, and during download copies each chunk at offset
`index · ChunkSize` into a buffer of the coordinator-reported size. -/
theorem upload_download_roundtrip (genH : String → Nat → String)
    (net : String → Bool) (sys : SystemState) (now : Nat)
    (B : List Nat) (X : String)
    (_hlen : B.length ≤ 10 * ChunkSize)
    (hinj : ∀ j1 j2, j1 < (CalculateNumChunks (B.length : Int)).toNat →
       j2 < (CalculateNumChunks (B.length : Int)).toNat →
       genH X j1 = genH X j2 → j1 = j2)
    (hnodup : (sys.master.chunkServers.map Prod.fst).Nodup)
    (hA : sys.master.getAvailableChunkServers now ReplicationFactor ≠ [])
    (hsrv : ∀ a ∈ sys.master.getAvailableChunkServers now ReplicationFactor,
       net a = true ∧ (alookup a sys.servers).isSome) :
    clientDownloadFile true net
      (clientUploadFile genH true net sys now B X).1 X = Except.ok B := by
  obtain ⟨m₁, locs, hok, hfile, hlocs, -⟩ :=
    masterUploadFile_ok genH sys.master now X (B.length : Int)
  have hraw : masterUploadFile genH sys.master now X (B.length : Int) =
      Except.ok ((uploadChunksLoop genH now X 0
          (CalculateNumChunks (B.length : Int)).toNat
          (sys.master.addFile now X (B.length : Int)
            (CalculateNumChunks (B.length : Int)))).1,
        (uploadChunksLoop genH now X 0
          (CalculateNumChunks (B.length : Int)).toNat
          (sys.master.addFile now X (B.length : Int)
            (CalculateNumChunks (B.length : Int)))).2) := rfl
  rw [hok] at hraw
  have hm₁ : m₁ = (uploadChunksLoop genH now X 0
      (CalculateNumChunks (B.length : Int)).toNat
      (sys.master.addFile now X (B.length : Int)
        (CalculateNumChunks (B.length : Int)))).1 :=
    congrArg Prod.fst (Except.ok.inj hraw)
  have hup : (clientUploadFile genH true net sys now B X).1 =
      locs.foldl (fun s loc => clientUploadChunk net B loc s)
        { master := m₁, servers := sys.servers } := by
    simp only [clientUploadFile, hok]
    simp
  have hrange : ∀ j ∈ List.range' 0 (CalculateNumChunks (B.length : Int)).toNat,
      j < (CalculateNumChunks (B.length : Int)).toNat := by
    intro j hj; rw [List.mem_range'_1] at hj; omega
  have hinjr : ∀ j1 ∈ List.range' 0 (CalculateNumChunks (B.length : Int)).toNat,
      ∀ j2 ∈ List.range' 0 (CalculateNumChunks (B.length : Int)).toNat,
      genH X j1 = genH X j2 → j1 = j2 := fun j1 h1 j2 h2 =>
    hinj j1 j2 (hrange j1 h1) (hrange j2 h2)
  have hrecs : ∀ j ∈ List.range' 0 (CalculateNumChunks (B.length : Int)).toNat,
      (SystemState.mk m₁ sys.servers).master.getChunk (genH X j) =
        some ⟨genH X j, [], 1, X, (j : Int)⟩ := by
    intro j hj
    show m₁.getChunk (genH X j) = _
    rw [hm₁]
    exact uploadChunksLoop_chunks_self genH now X
      (CalculateNumChunks (B.length : Int)).toNat 0 _ hinjr j hj
  have hAnodup : (sys.master.getAvailableChunkServers now ReplicationFactor).Nodup :=
    getAvailableChunkServers_nodup sys.master now ReplicationFactor hnodup
  obtain ⟨ffile, frec, fother, fserve, fframe, fsome⟩ :=
    uploadFold_effect genH net B X
      (sys.master.getAvailableChunkServers now ReplicationFactor)
      (List.range' 0 (CalculateNumChunks (B.length : Int)).toNat)
      (SystemState.mk m₁ sys.servers) hAnodup
      (List.nodup_range' 0 _ 1 (by norm_num)) (fun a ha => hsrv a ha)
      hinjr hrecs
  rw [hup, hlocs]
  set sys₂ := ((List.range' 0 (CalculateNumChunks (B.length : Int)).toNat).map
      (fun j => ChunkLocation.mk (genH X j)
        (sys.master.getAvailableChunkServers now ReplicationFactor)
        (j : Int))).foldl
      (fun s loc => clientUploadChunk net B loc s)
      (SystemState.mk m₁ sys.servers) with hsys₂
  have hgetF : sys₂.master.getFile X = some ⟨X, (B.length : Int),
      CalculateNumChunks (B.length : Int),
      (List.range' 0 (CalculateNumChunks (B.length : Int)).toNat).map (genH X),
      now⟩ := by
    rw [ffile X]
    exact hfile
  have hcollect : collectLocations sys₂.master
      ((List.range' 0 (CalculateNumChunks (B.length : Int)).toNat).map (genH X)) =
      Except.ok ((List.range' 0 (CalculateNumChunks (B.length : Int)).toNat).map
        (fun j => ChunkLocation.mk (genH X j)
          (sys.master.getAvailableChunkServers now ReplicationFactor) (j : Int))) :=
    collectLocations_mapped sys₂.master (genH X)
      (sys.master.getAvailableChunkServers now ReplicationFactor) X
      (List.range' 0 (CalculateNumChunks (B.length : Int)).toNat) frec
  have hdload : masterDownloadFile sys₂.master X =
      Except.ok (sys₂.master, (B.length : Int),
        (List.range' 0 (CalculateNumChunks (B.length : Int)).toNat).map
          (fun j => ChunkLocation.mk (genH X j)
            (sys.master.getAvailableChunkServers now ReplicationFactor)
            (j : Int))) := by
    unfold masterDownloadFile
    rw [show sys₂.master.getFile X = _ from hgetF]
    simp only [hcollect]
  have hdc : ∀ j ∈ List.range' 0 (CalculateNumChunks (B.length : Int)).toNat,
      ((fun j => ChunkLocation.mk (genH X j)
        (sys.master.getAvailableChunkServers now ReplicationFactor)
        (j : Int)) j).chunkIndex = (j : Int) ∧
      clientDownloadChunk net sys₂
        ((fun j => ChunkLocation.mk (genH X j)
          (sys.master.getAvailableChunkServers now ReplicationFactor)
          (j : Int)) j).chunkHandle
        ((fun j => ChunkLocation.mk (genH X j)
          (sys.master.getAvailableChunkServers now ReplicationFactor)
          (j : Int)) j).chunkServerAddresses =
        Except.ok ((B.drop (j * ChunkSize)).take ChunkSize) := by
    intro j hj
    refine ⟨rfl, ?_⟩
    obtain ⟨a₀, A', hAeq⟩ : ∃ a₀ A',
        sys.master.getAvailableChunkServers now ReplicationFactor = a₀ :: A' := by
      cases hAc : sys.master.getAvailableChunkServers now ReplicationFactor with
      | nil => exact absurd hAc hA
      | cons x xs => exact ⟨x, xs, rfl⟩
    have ha₀ : a₀ ∈ sys.master.getAvailableChunkServers now ReplicationFactor := by
      rw [hAeq]; exact List.mem_cons_self _ _
    obtain ⟨hneta, -⟩ := hsrv a₀ ha₀
    obtain ⟨st, hstl, hstred⟩ := fserve j hj a₀ ha₀
    show clientDownloadChunk net sys₂ (genH X j)
      (sys.master.getAvailableChunkServers now ReplicationFactor) = _
    rw [hAeq]
    unfold clientDownloadChunk
    rw [if_pos (by simp [hneta])]
    rw [show alookup a₀ sys₂.servers = some st from hstl]
    simp only [hstred]
  have hcnt' : (CalculateNumChunks (B.length : Int)).toNat =
      (B.length + ChunkSize - 1) / ChunkSize := by
    rw [calculateNumChunks_eq_ceil B.length]
    exact Int.toNat_natCast _
  have hbound : (0 + (CalculateNumChunks (B.length : Int)).toNat) * ChunkSize ≥
      B.length := by
    rw [hcnt']
    have hCS : ChunkSize = 67108864 := rfl
    rw [hCS]
    simp only [Nat.zero_add]
    omega
  have hre := downloadLoop_reassemble net sys₂ B
    (fun j => ChunkLocation.mk (genH X j)
      (sys.master.getAvailableChunkServers now ReplicationFactor) (j : Int))
    (CalculateNumChunks (B.length : Int)).toNat 0
    (List.replicate B.length 0) hdc (by simp) hbound
  show clientDownloadFile true net sys₂ X = Except.ok B
  unfold clientDownloadFile
  rw [if_neg (by simp)]
  rw [hdload]
  simp only [Int.toNat_natCast]
  simpa using hre

/-- Witness for `upload_download_roundtrip`: the 3-byte file `[1, 2, 3]`
uploaded as `"f"` into the one-node system round-trips. -/
theorem upload_download_roundtrip_witness :
    (([1, 2, 3] : List Nat).length ≤ 10 * ChunkSize) ∧
    (clientDownloadFile true (fun _ => true)
      (clientUploadFile genHEx true (fun _ => true) sysEx 100
        [1, 2, 3] "f").1 "f" = Except.ok [1, 2, 3]) :=
  ⟨by norm_num [ChunkSize],
   upload_download_roundtrip genHEx (fun _ => true) sysEx 100 [1, 2, 3] "f"
     (by norm_num [ChunkSize])
     (by
       intro j1 j2 h1 h2 _
       have hc : (CalculateNumChunks
           ((([1, 2, 3] : List Nat).length : Nat) : Int)).toNat = 1 := by decide
       rw [hc] at h1 h2
       omega)
     (by decide) (by decide) (by decide)⟩

/-- C8: for the data-node storage index, a successful
`write_chunk(handle, bytes)` makes `read_chunk(handle)` return exactly
those bytes, a later `write_chunk` with the same handle overwrites them,
and `read_chunk(handle)` fails with `NotFound` exactly when the
in-memory present-set excludes the handle. -/
theorem storage_write_read_contract (s : Storage) (hdl : String)
    (d d' : List Nat) :
    (s.writeChunk hdl d).readChunk hdl = Except.ok d ∧
    ((s.writeChunk hdl d').writeChunk hdl d).readChunk hdl = Except.ok d ∧
    (s.readChunk hdl = Except.error (DfsError.notFound hdl) ↔
      s.hasChunk hdl = false) := by
  refine ⟨readChunk_writeChunk_self s hdl d,
    readChunk_writeChunk_self (s.writeChunk hdl d') hdl d, ?_⟩
  by_cases hc : hdl ∈ s.chunks
  · simp only [Storage.readChunk, Storage.hasChunk, hc]
    cases halk : alookup hdl s.disk <;> simp [hc]
  · simp [Storage.readChunk, Storage.hasChunk, hc]

/-- C10: reporting a chunk whose handle has no chunk record returns
`Success = true` and leaves the whole coordinator metadata unchanged:
the report is silently dropped, not rejected. -/
theorem reportChunk_unknown_handle_noop (m : Metadata) (addr hdl : String)
    (habs : m.getChunk hdl = none) :
    masterReportChunk m hdl addr = (m, true) := by
  simp only [masterReportChunk, Metadata.addChunkLocation]
  rw [show alookup hdl m.chunks = none from habs]

/-- Witness for `reportChunk_unknown_handle_noop`: in a state holding a
file and a chunk server but no chunk records, a report for handle `"h"`
is acknowledged and changes nothing. -/
theorem reportChunk_unknown_handle_noop_witness :
    (Metadata.mk [("f", ⟨"f", 3, 1, ["g"], 0⟩)] []
        [("a", ⟨"a", 100, []⟩)]).getChunk "h" = none ∧
    masterReportChunk
        (Metadata.mk [("f", ⟨"f", 3, 1, ["g"], 0⟩)] []
          [("a", ⟨"a", 100, []⟩)]) "h" "a" =
      (Metadata.mk [("f", ⟨"f", 3, 1, ["g"], 0⟩)] []
        [("a", ⟨"a", 100, []⟩)], true) :=
  ⟨by rfl, reportChunk_unknown_handle_noop _ "a" "h" (by rfl)⟩

end Dfs
